import Mathlib

/-!
Verification of the agui-copilot session/stream orchestration and
human-in-the-loop tool-call handoff protocol.

The development shallowly embeds the TypeScript sources:
* a JSON document model (`Json`) standing for the JavaScript values the
  agents manipulate (objects keep their key insertion order, as JS does);
* the fast-json-patch primitives used by the state tools (`Fjp.generate`,
  the recursive worker of `compare`, and `Fjp.applyPOps` for `applyPatch`),
  translated from that library at the JSON-Pointer token level: an
  operation path is modelled as its list of reference tokens, whose wire
  form is the `/`-joined escaped string;
* the `update_state` tool handlers of `human-in-the-loop.ts` (whole-object
  merge via object spread) and `agents/shared-state.ts` (explicit RFC 6902
  patches with validation);
* the run orchestration of the resumable `CopilotAgent` /
  `SharedStateAgent` variants: module-level registries (`pendingToolCalls`,
  `sessionCache`, `activeObservers`), run classification, the
  subscribe-then-resolve resumption protocol, the fallback-prompt path,
  and the blocking human-in-the-loop tool handler.  Effects are recorded
  as an explicit `Action` trace.
-/

/-- JSON-like document values.  Objects are association lists in key
insertion order, mirroring JavaScript object semantics; numbers are
modelled as integers (the state documents under study never rely on
non-integer arithmetic). -/
inductive Json where
  | null
  | bool (b : Bool)
  | num (n : Int)
  | str (s : String)
  | arr (elems : List Json)
  | obj (entries : List (String × Json))

mutual

def Json.beq : Json → Json → Bool
  | .null, .null => true
  | .bool a, .bool b => a == b
  | .num a, .num b => a == b
  | .str a, .str b => a == b
  | .arr xs, .arr ys => Json.beqList xs ys
  | .obj es, .obj fs => Json.beqEntries es fs
  | _, _ => false

def Json.beqList : List Json → List Json → Bool
  | [], [] => true
  | x :: xs, y :: ys => Json.beq x y && Json.beqList xs ys
  | _, _ => false

def Json.beqEntries : List (String × Json) → List (String × Json) → Bool
  | [], [] => true
  | (k, v) :: es, (l, w) :: fs => k == l && Json.beq v w && Json.beqEntries es fs
  | _, _ => false

end

theorem Json.beq_correct :
    (∀ a b : Json, Json.beq a b = true ↔ a = b) ∧
    (∀ es fs : List (String × Json), Json.beqEntries es fs = true ↔ es = fs) ∧
    (∀ xs ys : List Json, Json.beqList xs ys = true ↔ xs = ys) := by
  apply Json.beq.mutual_induct
    (fun a b => Json.beq a b = true ↔ a = b)
    (fun es fs => Json.beqEntries es fs = true ↔ es = fs)
    (fun xs ys => Json.beqList xs ys = true ↔ xs = ys)
  case case1 => simp [Json.beq]
  case case2 => intro a b; simp [Json.beq]
  case case3 => intro a b; simp [Json.beq]
  case case4 => intro a b; simp [Json.beq]
  case case5 => intro xs ys ih; simp [Json.beq, ih]
  case case6 => intro es fs ih; simp [Json.beq, ih]
  case case7 =>
    intro t x h1 h2 h3 h4 h5 h6
    constructor
    · intro hbeq
      exfalso
      cases t <;> cases x <;> simp [Json.beq] at hbeq <;> first
        | exact h1 rfl rfl
        | exact h2 _ _ rfl rfl
        | exact h3 _ _ rfl rfl
        | exact h4 _ _ rfl rfl
        | exact h5 _ _ rfl rfl
        | exact h6 _ _ rfl rfl
    · intro heq
      exfalso
      cases t <;> cases x <;> (try cases heq) <;> first
        | exact h1 rfl rfl
        | exact h2 _ _ rfl rfl
        | exact h3 _ _ rfl rfl
        | exact h4 _ _ rfl rfl
        | exact h5 _ _ rfl rfl
        | exact h6 _ _ rfl rfl
  case case8 => simp [Json.beqList]
  case case9 => intro x xs y ys ih1 ih2; simp [Json.beqList, ih1, ih2]
  case case10 =>
    intro t x h1 h2
    constructor
    · intro hbeq
      exfalso
      cases t <;> cases x <;> simp [Json.beqList] at hbeq <;> first
        | exact h1 rfl rfl
        | exact h2 _ _ _ _ rfl rfl
    · intro heq
      exfalso
      cases t <;> cases x <;> (try cases heq) <;> first
        | exact h1 rfl rfl
        | exact h2 _ _ _ _ rfl rfl
  case case11 => simp [Json.beqEntries]
  case case12 => intro k v es l w fs ih1 ih2; simp [Json.beqEntries, ih1, ih2]
  case case13 =>
    intro t x h1 h2
    constructor
    · intro hbeq
      exfalso
      cases t with
      | nil =>
        cases x with
        | nil => exact h1 rfl rfl
        | cons b bs => simp [Json.beqEntries] at hbeq
      | cons a as =>
        cases x with
        | nil => simp [Json.beqEntries] at hbeq
        | cons b bs =>
          exact h2 _ _ _ _ _ _ (by rw [← Prod.mk.eta (p := a)]) (by rw [← Prod.mk.eta (p := b)])
    · intro heq
      exfalso
      cases t with
      | nil =>
        cases x with
        | nil => exact h1 rfl rfl
        | cons b bs => cases heq
      | cons a as =>
        cases x with
        | nil => cases heq
        | cons b bs =>
          exact h2 _ _ _ _ _ _ (by rw [← Prod.mk.eta (p := a)]) (by rw [← Prod.mk.eta (p := b)])

instance : DecidableEq Json := fun a b =>
  decidable_of_iff (Json.beq a b = true) (Json.beq_correct.1 a b)

/-- Association-list lookup: the first entry with the given key
(JavaScript property access on our ordered-entry object model). -/
def alookup {α : Type} : List (String × α) → String → Option α
  | [], _ => none
  | (k₁, v₁) :: rest, k => if k₁ = k then some v₁ else alookup rest k

/-- JavaScript `obj[k] = v` / `Map.set`: overwrite the entry in place if
the key exists, otherwise append a new entry. -/
def aset {α : Type} : List (String × α) → String → α → List (String × α)
  | [], k, v => [(k, v)]
  | (k₁, v₁) :: rest, k, v =>
    if k₁ = k then (k, v) :: rest else (k₁, v₁) :: aset rest k v

/-- JavaScript `delete obj[k]` / `Map.delete`: drop the entry with the
key, keeping the order of the rest. -/
def aremove {α : Type} : List (String × α) → String → List (String × α)
  | [], _ => []
  | (k₁, v₁) :: rest, k =>
    if k₁ = k then rest else (k₁, v₁) :: aremove rest k

/-- Key uniqueness of an entry list, decided executably. -/
def nodupKeysB {α : Type} : List (String × α) → Bool
  | [] => true
  | (k, _) :: rest => (alookup rest k).isNone && nodupKeysB rest

theorem alookup_aset_self {α : Type} (l : List (String × α)) (k : String) (v : α) :
    alookup (aset l k v) k = some v := by
  induction l with
  | nil => simp [aset, alookup]
  | cons hd t ih =>
    by_cases hk : hd.1 = k
    · simp [aset, hk, alookup]
    · simp [aset, hk, alookup, ih]

theorem alookup_aset_ne {α : Type} (l : List (String × α)) (k j : String) (v : α)
    (h : k ≠ j) : alookup (aset l k v) j = alookup l j := by
  induction l with
  | nil => simp [aset, alookup, h]
  | cons hd t ih =>
    by_cases hk : hd.1 = k
    · subst hk
      simp [aset, alookup, h]
    · simp [aset, hk, alookup, ih]

theorem alookup_aremove_self {α : Type} (l : List (String × α)) (k : String)
    (h : nodupKeysB l = true) : alookup (aremove l k) k = none := by
  induction l with
  | nil => simp [aremove, alookup]
  | cons hd t ih =>
    simp only [nodupKeysB, Bool.and_eq_true] at h
    by_cases hk : hd.1 = k
    · subst hk
      simpa [aremove, Option.isNone_iff_eq_none] using h.1
    · simp [aremove, hk, alookup, ih h.2]

theorem alookup_aremove_ne {α : Type} (l : List (String × α)) (k j : String)
    (h : k ≠ j) : alookup (aremove l k) j = alookup l j := by
  induction l with
  | nil => simp [aremove]
  | cons hd t ih =>
    by_cases hk : hd.1 = k
    · subst hk
      simp [aremove, alookup, h]
    · simp [aremove, hk, alookup, ih]

theorem nodupKeysB_aset {α : Type} (l : List (String × α)) (k : String) (v : α)
    (h : nodupKeysB l = true) : nodupKeysB (aset l k v) = true := by
  induction l with
  | nil => simp [aset, nodupKeysB, alookup]
  | cons hd t ih =>
    simp only [nodupKeysB, Bool.and_eq_true] at h
    by_cases hk : hd.1 = k
    · simp only [aset, hk, if_pos, nodupKeysB, Bool.and_eq_true]
      exact ⟨by rw [← hk]; exact h.1, h.2⟩
    · simp only [aset, hk, if_neg, ite_false, nodupKeysB, Bool.and_eq_true]
      refine ⟨?_, ih h.2⟩
      rw [alookup_aset_ne]
      · exact h.1
      · intro hkk
        exact hk hkk.symm

theorem nodupKeysB_aremove {α : Type} (l : List (String × α)) (k : String)
    (h : nodupKeysB l = true) : nodupKeysB (aremove l k) = true := by
  induction l with
  | nil => simp [aremove, nodupKeysB]
  | cons hd t ih =>
    simp only [nodupKeysB, Bool.and_eq_true] at h
    by_cases hk : hd.1 = k
    · simp [aremove, hk, h.2]
    · simp only [aremove, hk, if_neg, ite_false, nodupKeysB, Bool.and_eq_true]
      refine ⟨?_, ih h.2⟩
      by_cases hkk : k = hd.1
      · exact absurd hkk.symm hk
      · rw [alookup_aremove_ne _ _ _ hkk]
        exact h.1

theorem alookup_isSome_of_mem {α : Type} {l : List (String × α)} {kv : String × α}
    (h : kv ∈ l) : (alookup l kv.1).isSome = true := by
  induction l with
  | nil => cases h
  | cons hd t ih =>
    rcases List.mem_cons.mp h with h1 | h1
    · simp [h1, alookup]
    · by_cases hk : hd.1 = kv.1
      · simp [alookup, hk]
      · simp [alookup, hk, ih h1]

theorem alookup_eq_of_mem_nodup {α : Type} {l : List (String × α)} {k : String} {v : α}
    (hn : nodupKeysB l = true) (h : (k, v) ∈ l) : alookup l k = some v := by
  induction l with
  | nil => cases h
  | cons hd t ih =>
    simp only [nodupKeysB, Bool.and_eq_true] at hn
    rcases List.mem_cons.mp h with h1 | h1
    · simp [← h1, alookup]
    · by_cases hk : hd.1 = k
      · exfalso
        have hs := alookup_isSome_of_mem h1
        rw [show ((k, v) : String × α).1 = k from rfl, ← hk] at hs
        rw [Option.isNone_iff_eq_none] at hn
        simp [hn.1] at hs
      · simp [alookup, hk, ih hn.2 h1]

theorem mem_of_alookup_eq_some {α : Type} {l : List (String × α)} {k : String} {v : α}
    (h : alookup l k = some v) : (k, v) ∈ l := by
  induction l with
  | nil => simp [alookup] at h
  | cons hd t ih =>
    by_cases hk : hd.1 = k
    · subst hk
      simp only [alookup, if_pos] at h
      injection h with hv
      rw [← hv, Prod.mk.eta]
      exact List.mem_cons_self _ _
    · simp only [alookup, hk, if_neg, ite_false] at h
      exact List.mem_cons_of_mem _ (ih h)

mutual

/-- Well-formed documents: object key lists are duplicate-free at every
level (always true of real JavaScript objects). -/
def Json.wfB : Json → Bool
  | .null => true
  | .bool _ => true
  | .num _ => true
  | .str _ => true
  | .arr xs => Json.wfList xs
  | .obj es => nodupKeysB es && Json.wfEntries es

def Json.wfList : List Json → Bool
  | [] => true
  | x :: xs => Json.wfB x && Json.wfList xs

def Json.wfEntries : List (String × Json) → Bool
  | [] => true
  | (_, v) :: es => Json.wfB v && Json.wfEntries es

end

theorem wfList_mem {xs : List Json} {x : Json} (hm : x ∈ xs)
    (h : Json.wfList xs = true) : Json.wfB x = true := by
  induction xs with
  | nil => cases hm
  | cons hd t ih =>
    simp only [Json.wfList, Bool.and_eq_true] at h
    rcases List.mem_cons.mp hm with h1 | h1
    · rw [h1]; exact h.1
    · exact ih h1 h.2

theorem wfEntries_mem {es : List (String × Json)} {kv : String × Json} (hm : kv ∈ es)
    (h : Json.wfEntries es = true) : Json.wfB kv.2 = true := by
  induction es with
  | nil => cases hm
  | cons hd t ih =>
    rw [show hd = (hd.1, hd.2) from (Prod.mk.eta).symm] at h
    simp only [Json.wfEntries, Bool.and_eq_true] at h
    rcases List.mem_cons.mp hm with h1 | h1
    · rw [h1]; exact h.1
    · exact ih h1 h.2

theorem wfEntries_of_alookup {es : List (String × Json)} {k : String} {v : Json}
    (hl : alookup es k = some v) (h : Json.wfEntries es = true) : Json.wfB v = true :=
  wfEntries_mem (mem_of_alookup_eq_some hl) h

/-- Every key of `bs` is present in `as` (used for object equivalence). -/
def keysSub {α : Type} (bs as : List (String × α)) : Bool :=
  bs.all fun kv => (alookup as kv.1).isSome

mutual

/-- Order-insensitive document equivalence: equality up to the ordering
of keys inside JSON objects (array order still matters).  This is the
equality JavaScript deep-equal checks use; byte-for-byte equality of
`JSON.stringify` output additionally depends on key order. -/
def jeq : Json → Json → Bool
  | .null, .null => true
  | .bool a, .bool b => a == b
  | .num a, .num b => a == b
  | .str a, .str b => a == b
  | .arr xs, .arr ys => jeqList xs ys
  | .obj es, .obj fs => jeqEntries es fs && keysSub fs es
  | _, _ => false

def jeqList : List Json → List Json → Bool
  | [], [] => true
  | x :: xs, y :: ys => jeq x y && jeqList xs ys
  | _, _ => false

/-- Every entry of the first list has a `jeq`-matching value in the
second. -/
def jeqEntries : List (String × Json) → List (String × Json) → Bool
  | [], _ => true
  | (k, v) :: es, bs =>
    (match alookup bs k with
     | some w => jeq v w
     | none => false) && jeqEntries es bs

end

theorem jeqEntries_iff {es bs : List (String × Json)} :
    jeqEntries es bs = true ↔
      ∀ kv ∈ es, ∃ w, alookup bs kv.1 = some w ∧ jeq kv.2 w = true := by
  induction es with
  | nil => simp [jeqEntries]
  | cons hd t ih =>
    rw [show hd = (hd.1, hd.2) from (Prod.mk.eta).symm]
    simp only [jeqEntries, Bool.and_eq_true, List.mem_cons, ih]
    constructor
    · rintro ⟨h1, h2⟩ kv hkv
      rcases hkv with hkv | hkv
      · rcases hw : alookup bs hd.1 with _ | w
        · rw [hw] at h1; simp at h1
        · rw [hw] at h1
          exact ⟨w, by rw [hkv]; exact hw, by rw [hkv]; exact h1⟩
      · exact h2 kv hkv
    · intro h
      constructor
      · rcases h (hd.1, hd.2) (Or.inl rfl) with ⟨w, hw, hjw⟩
        rw [hw]
        exact hjw
      · intro kv hkv
        exact h kv (Or.inr hkv)

theorem jeq_obj_intro {es bs : List (String × Json)}
    (h1 : ∀ kv ∈ es, ∃ w, alookup bs kv.1 = some w ∧ jeq kv.2 w = true)
    (h2 : ∀ kv ∈ bs, (alookup es kv.1).isSome = true) :
    jeq (.obj es) (.obj bs) = true := by
  simp only [jeq, Bool.and_eq_true]
  exact ⟨jeqEntries_iff.mpr h1, by simp only [keysSub, List.all_eq_true]; exact h2⟩

theorem jeqList_iff {xs ys : List Json} :
    jeqList xs ys = true ↔
      xs.length = ys.length ∧ ∀ i x y, xs.get? i = some x → ys.get? i = some y →
        jeq x y = true := by
  induction xs generalizing ys with
  | nil =>
    cases ys with
    | nil => simp [jeqList]
    | cons b bs => simp [jeqList]
  | cons a as ih =>
    cases ys with
    | nil => simp [jeqList]
    | cons b bs =>
      simp only [jeqList, Bool.and_eq_true, ih, List.length_cons]
      constructor
      · rintro ⟨h1, h2, h3⟩
        refine ⟨by omega, ?_⟩
        intro i x y hx hy
        cases i with
        | zero =>
          simp only [List.get?] at hx hy
          cases hx; cases hy; exact h1
        | succ n =>
          simp only [List.get?] at hx hy
          exact h3 n x y hx hy
      · rintro ⟨h1, h2⟩
        refine ⟨h2 0 a b rfl rfl, by omega, ?_⟩
        intro i x y hx hy
        exact h2 (i + 1) x y hx hy

mutual

theorem jeq_refl : ∀ a : Json, Json.wfB a = true → jeq a a = true
  | .null, _ => rfl
  | .bool b, _ => by simp [jeq]
  | .num n, _ => by simp [jeq]
  | .str s, _ => by simp [jeq]
  | .arr xs, h => by
    simp only [jeq]
    exact jeqList_refl xs (by simpa [Json.wfB] using h)
  | .obj es, h => by
    simp only [Json.wfB, Bool.and_eq_true] at h
    simp only [jeq, Bool.and_eq_true]
    refine ⟨jeqEntries_refl es es h.1 h.2 (fun kv hkv => hkv), ?_⟩
    simp only [keysSub, List.all_eq_true]
    exact fun kv hkv => alookup_isSome_of_mem hkv

theorem jeqList_refl : ∀ xs : List Json, Json.wfList xs = true → jeqList xs xs = true
  | [], _ => rfl
  | x :: xs, h => by
    simp only [Json.wfList, Bool.and_eq_true] at h
    simp only [jeqList, Bool.and_eq_true]
    exact ⟨jeq_refl x h.1, jeqList_refl xs h.2⟩

theorem jeqEntries_refl : ∀ (es bs : List (String × Json)), nodupKeysB bs = true →
    Json.wfEntries es = true → (∀ kv ∈ es, kv ∈ bs) → jeqEntries es bs = true
  | [], _, _, _, _ => rfl
  | (k, v) :: es, bs, hn, hw, hsub => by
    simp only [Json.wfEntries, Bool.and_eq_true] at hw
    simp only [jeqEntries, Bool.and_eq_true]
    constructor
    · have hm : (k, v) ∈ bs := hsub (k, v) (List.mem_cons_self _ _)
      rw [alookup_eq_of_mem_nodup hn hm]
      exact jeq_refl v hw.1
    · exact jeqEntries_refl es bs hn hw.2 (fun kv hkv => hsub kv (List.mem_cons_of_mem _ hkv))

end

namespace Fjp

/-- One JSON-Patch operation at the reference-token level: `path` is the
list of JSON-Pointer tokens (the wire form is the `/`-joined, escaped
string built by fast-json-patch). -/
structure POp where
  op : String
  path : List String
  value : Option Json
deriving DecidableEq

/-- Decimal digit character. -/
def digitChar (n : Nat) : Char :=
  if n = 0 then '0' else if n = 1 then '1' else if n = 2 then '2'
  else if n = 3 then '3' else if n = 4 then '4' else if n = 5 then '5'
  else if n = 6 then '6' else if n = 7 then '7' else if n = 8 then '8' else '9'

/-- Fuel-driven decimal rendering (the recursion is structural on the
fuel so that concrete instances reduce in the kernel). -/
def decReprCore : Nat → Nat → List Char
  | 0, _ => []
  | fuel + 1, n =>
    if n < 10 then [digitChar n]
    else decReprCore fuel (n / 10) ++ [digitChar (n % 10)]

/-- JavaScript `String(n)` for a non-negative integer index. -/
def decRepr (n : Nat) : String := String.mk (decReprCore (n + 1) n)

/-- Decimal digit value of a character, if it is a digit. -/
def digitVal (c : Char) : Option Nat :=
  if c = '0' then some 0 else if c = '1' then some 1 else if c = '2' then some 2
  else if c = '3' then some 3 else if c = '4' then some 4 else if c = '5' then some 5
  else if c = '6' then some 6 else if c = '7' then some 7 else if c = '8' then some 8
  else if c = '9' then some 9 else none

def parseIdxCore : List Char → Nat → Option Nat
  | [], acc => some acc
  | c :: cs, acc =>
    match digitVal c with
    | some d => parseIdxCore cs (acc * 10 + d)
    | none => none

/-- fast-json-patch array-index parsing (`isInteger` check plus numeric
coercion): all-digit tokens parse, everything else is rejected. -/
def parseIdx (s : String) : Option Nat :=
  match s.toList with
  | [] => none
  | cs => parseIdxCore cs 0

/-- JavaScript `typeof x === "object" && x !== null`. -/
def isContainer : Json → Bool
  | .obj _ => true
  | .arr _ => true
  | _ => false

/-- JavaScript `Array.isArray`. -/
def isArrJ : Json → Bool
  | .arr _ => true
  | _ => false

/-- fast-json-patch `_objectKeys` (JavaScript `Object.keys`): object keys
in insertion order, array and string indices as decimal strings. -/
def jsKeys : Json → List String
  | .obj es => es.map Prod.fst
  | .arr xs => (List.range xs.length).map decRepr
  | .str s => (List.range s.toList.length).map decRepr
  | _ => []

/-- JavaScript own-property access `x[key]` (and `hasOwnProperty` via
`isSome`). -/
def jsGet : Json → String → Option Json
  | .obj es, k => alookup es k
  | .arr xs, k =>
    match parseIdx k with
    | some i => xs.get? i
    | none => none
  | .str s, k =>
    match parseIdx k with
    | some i => (s.toList.get? i).map fun c => Json.str (String.mk [c])
    | none => none
  | _, _ => none

theorem sizeOf_alookup {es : List (String × Json)} {k : String} {v : Json}
    (h : alookup es k = some v) : sizeOf v < sizeOf (Json.obj es) := by
  have hm := mem_of_alookup_eq_some h
  have h1 : sizeOf ((k, v) : String × Json) ≤ sizeOf es := le_of_lt (List.sizeOf_lt_of_mem hm)
  simp only [Prod.mk.sizeOf_spec] at h1
  simp only [Json.obj.sizeOf_spec]
  omega

theorem sizeOf_get? {xs : List Json} {i : Nat} {v : Json}
    (h : xs.get? i = some v) : sizeOf v < sizeOf (Json.arr xs) := by
  have hm : v ∈ xs := List.get?_mem h
  have h1 := List.sizeOf_lt_of_mem hm
  simp only [Json.arr.sizeOf_spec]
  omega

/-- The recursion in `generate` only ever descends into containers, and
a container retrieved from a property of `m` is structurally smaller. -/
theorem jsGet_sizeOf {m v : Json} {k : String} (h : jsGet m k = some v)
    (hc : isContainer v = true) : sizeOf v < sizeOf m := by
  cases m with
  | obj es => exact sizeOf_alookup h
  | arr xs =>
    simp only [jsGet] at h
    rcases hp : parseIdx k with _ | i
    · rw [hp] at h; cases h
    · rw [hp] at h
      exact sizeOf_get? h
  | str s =>
    simp only [jsGet] at h
    split at h
    · cases hg : s.toList.get? _ with
      | none => rw [hg] at h; cases h
      | some c =>
        rw [hg] at h
        simp only [Option.map_some'] at h
        injection h with h
        rw [← h] at hc
        simp [isContainer] at hc
    · cases h
  | null => cases h
  | bool b => cases h
  | num n => cases h

/-- The add pass of fast-json-patch `_generate`: emit an `add` for each
key of the new document absent from the mirror (values are never
`undefined` in our model, so the `!== undefined` guard always holds). -/
def genAdd (mirror obj : Json) (path : List String) : List String → List POp
  | [] => []
  | key :: rest =>
    (match jsGet mirror key, jsGet obj key with
     | none, some newVal => [⟨"add", path ++ [key], some newVal⟩]
     | _, _ => []) ++ genAdd mirror obj path rest

mutual

/-- fast-json-patch `_generate`, the recursive worker of `compare`:
diff `mirror` against `obj`, emitting operations under `path`.  The
old-key pass walks the mirror's keys in reverse, recursing into
like-kinded containers, replacing changed values, removing vanished keys
(or, when the container kinds disagree, replacing the whole subtree);
the add pass is skipped when nothing was deleted and the key counts
match. -/
def generate (mirror obj : Json) (path : List String) : List POp :=
  let newKeys := jsKeys obj
  let oldKeys := jsKeys mirror
  let old := genOld mirror obj path oldKeys.reverse
  if !old.2 && newKeys.length == oldKeys.length then old.1
  else old.1 ++ genAdd mirror obj path newKeys
termination_by (sizeOf mirror, 1, 0)
decreasing_by
  apply Prod.Lex.right
  apply Prod.Lex.left
  omega

/-- The reversed-key pass of `_generate`; the boolean is the `deleted`
flag. -/
def genOld (mirror obj : Json) (path : List String) : List String → List POp × Bool
  | [] => ([], false)
  | key :: rest =>
    let step : List POp × Bool :=
      match hov : jsGet mirror key with
      | none => ([], false)
      | some oldVal =>
        match jsGet obj key with
        | some newVal =>
          if hc : (isContainer oldVal && isContainer newVal &&
              (isArrJ oldVal == isArrJ newVal)) = true then
            (generate oldVal newVal (path ++ [key]), false)
          else if oldVal ≠ newVal then
            ([⟨"replace", path ++ [key], some newVal⟩], false)
          else ([], false)
        | none =>
          if isArrJ mirror == isArrJ obj then ([⟨"remove", path ++ [key], none⟩], true)
          else ([⟨"replace", path, some obj⟩], false)
    let next := genOld mirror obj path rest
    (step.1 ++ next.1, step.2 || next.2)
termination_by keys => (sizeOf mirror, 0, keys.length)
decreasing_by
  · apply Prod.Lex.left
    simp only [Bool.and_eq_true] at hc
    exact jsGet_sizeOf hov hc.1.1
  · apply Prod.Lex.right
    apply Prod.Lex.right
    simp [List.length_cons]

end

/-- fast-json-patch `compare(mirror, obj)` (token-level paths). -/
def compare (mirror obj : Json) : List POp := generate mirror obj []

end Fjp

namespace Fjp

/-- fast-json-patch `applyOperation` at the final reference token, with
operation validation on: `replace`/`remove` require the target to exist,
array indices must be in bounds (`-` appends), `add` on an array allows
index = length. -/
def applyAtLeaf (doc : Json) (o : String) (key : String) (v : Option Json) :
    Except String Json :=
  match doc with
  | .obj es =>
    if o = "add" then
      match v with
      | some w => .ok (.obj (aset es key w))
      | none => .error "missing value"
    else if o = "replace" then
      match alookup es key, v with
      | some _, some w => .ok (.obj (aset es key w))
      | none, _ => .error "path unresolvable"
      | some _, none => .error "missing value"
    else if o = "remove" then
      match alookup es key with
      | some _ => .ok (.obj (aremove es key))
      | none => .error "path unresolvable"
    else .error "unsupported operation"
  | .arr xs =>
    if o = "add" then
      match v with
      | none => .error "missing value"
      | some w =>
        if key = "-" then .ok (.arr (xs ++ [w]))
        else
          match parseIdx key with
          | some i =>
            if i ≤ xs.length then .ok (.arr (xs.insertIdx i w))
            else .error "index out of bounds"
          | none => .error "bad array index"
    else if o = "replace" then
      match parseIdx key, v with
      | some i, some w =>
        if i < xs.length then .ok (.arr (xs.set i w))
        else .error "index out of bounds"
      | none, _ => .error "bad array index"
      | some _, none => .error "missing value"
    else if o = "remove" then
      match parseIdx key with
      | some i =>
        if i < xs.length then .ok (.arr (xs.eraseIdx i))
        else .error "index out of bounds"
      | none => .error "bad array index"
    else .error "unsupported operation"
  | _ => .error "cannot index a primitive"

/-- fast-json-patch `applyOperation` on token paths (mutation-free, as
in `applyPatch(doc, ops, true, false)`): an empty path addresses the
whole document, otherwise the path is walked down to the parent of the
target.  The `move`/`copy`/`test` operations fall outside the
`update_state` tool's declared schema and are modelled as rejected. -/
def applyOp (doc : Json) (o : String) (path : List String) (v : Option Json) :
    Except String Json :=
  match path with
  | [] =>
    if o = "add" ∨ o = "replace" then
      match v with
      | some w => .ok w
      | none => .error "missing value"
    else if o = "remove" then .ok .null
    else .error "unsupported operation"
  | [key] => applyAtLeaf doc o key v
  | key :: rest =>
    match doc with
    | .obj es =>
      match alookup es key with
      | some child =>
        match applyOp child o rest v with
        | .ok c => .ok (.obj (aset es key c))
        | .error e => .error e
      | none => .error "path unresolvable"
    | .arr xs =>
      match parseIdx key with
      | some i =>
        match xs.get? i with
        | some child =>
          match applyOp child o rest v with
          | .ok c => .ok (.arr (xs.set i c))
          | .error e => .error e
        | none => .error "path unresolvable"
      | none => .error "path unresolvable"
    | _ => .error "path unresolvable"

/-- fast-json-patch `applyPatch`: operations applied in order; the first
failure aborts the whole application (the handler catches it, so the
mirror is left untouched). -/
def applyPOps (doc : Json) : List POp → Except String Json
  | [] => .ok doc
  | p :: rest =>
    match applyOp doc p.op p.path p.value with
    | .ok d => applyPOps d rest
    | .error e => .error e

/-- A raw `update_state` operation as received from the model: any of
the fields may be missing. -/
structure RawOp where
  op : Option String
  path : Option String
  value : Option Json
deriving DecidableEq

/-- JavaScript falsiness of an optional string field (`!op.op`): missing
or empty. -/
def falsyStr : Option String → Bool
  | none => true
  | some s => s == ""

/-- `String.prototype.split('/')` at the character level. -/
def splitSlash : List Char → List (List Char)
  | [] => [[]]
  | c :: rest =>
    let r := splitSlash rest
    if c = '/' then [] :: r
    else
      match r with
      | s :: ss => (c :: s) :: ss
      | [] => [[c]]

/-- Replace every (non-overlapping, left-to-right) occurrence of the
two-character sequence `a b` by `c`. -/
def replacePair (a b c : Char) : List Char → List Char
  | [] => []
  | [x] => [x]
  | x :: y :: rest =>
    if x = a ∧ y = b then c :: replacePair a b c rest
    else x :: replacePair a b c (y :: rest)

/-- fast-json-patch `unescapePathComponent`: `~1` becomes `/`, then `~0`
becomes `~`. -/
def unescapeToken (s : String) : String :=
  String.mk (replacePair '~' '0' '~' (replacePair '~' '1' '/' s.toList))

/-- JSON-Pointer string to reference tokens, as fast-json-patch walks
them: split on `/`, skip the leading empty segment, unescape each. -/
def parsePointer (p : String) : List String :=
  (((splitSlash p.toList).map fun cs => String.mk cs).drop 1).map unescapeToken

/-- A validated raw operation as the token-level operation it denotes. -/
def toPOp (r : RawOp) : POp :=
  ⟨r.op.getD "", parsePointer (r.path.getD ""), r.value⟩

/-- `applyPatch` on the raw operations the tool received. -/
def applyRawOps (doc : Json) (ops : List RawOp) : Except String Json :=
  applyPOps doc (ops.map toPOp)

end Fjp

/-- The validation loop of the explicit-patch `update_state` handler
(`agents/shared-state.ts`): the first operation missing an `op` or
`path` field, or an `add`/`replace` operation missing a `value`, yields
a descriptive error; `none` means the batch passed validation. -/
def validateOps : List Fjp.RawOp → Option String
  | [] => none
  | r :: rest =>
    if Fjp.falsyStr r.op || Fjp.falsyStr r.path then
      some "Invalid operation: each operation must have 'op' and 'path' fields"
    else if (r.op == some "add" || r.op == some "replace") && r.value == none then
      some ("Operation '" ++ r.op.getD "" ++ "' requires a 'value' field")
    else validateOps rest

/-- A tool handler's structured return value to the model session. -/
inductive ToolReply where
  | ok (message : String)
  | fail (error : String)
deriving DecidableEq

/-- Result of one `update_state` invocation: the reply to the model, the
state mirror afterwards, and the STATE_DELTA payloads emitted on the
stream. -/
structure PatchStep where
  reply : ToolReply
  state : Json
  emitted : List (List Fjp.RawOp)
deriving DecidableEq

/-- The explicit-patch `update_state` handler of `agents/shared-state.ts`
(and of the resumable `SharedStateAgent` when a stream binding exists):
reject a missing/empty batch, validate every operation up front, apply
the whole batch via `applyPatch` (mutation off), and only then replace
the mirror and forward the operations verbatim as the STATE_DELTA.  A
thrown application error is caught and reported, leaving the mirror
untouched. -/
def updateStatePatch (localState : Json) (operations : Option (List Fjp.RawOp)) :
    PatchStep :=
  match operations with
  | none =>
    ⟨.fail "No valid operations provided. Expected an array of JSON Patch operations.",
     localState, []⟩
  | some ops =>
    if ops.length = 0 then
      ⟨.fail "No valid operations provided. Expected an array of JSON Patch operations.",
       localState, []⟩
    else
      match validateOps ops with
      | some e => ⟨.fail e, localState, []⟩
      | none =>
        match Fjp.applyRawOps localState ops with
        | .ok newDoc =>
          ⟨.ok ("Applied " ++ toString ops.length ++ " operation(s)"), newDoc, [ops]⟩
        | .error msg => ⟨.fail ("Failed to apply state patch: " ++ msg), localState, []⟩

/-- The own-enumerable entries JavaScript object spread copies from a
value: object entries, array elements under their index keys, string
characters under theirs; primitives contribute nothing. -/
def toEntries : Json → List (String × Json)
  | .obj es => es
  | .arr xs => xs.enum.map fun p => (Fjp.decRepr p.1, p.2)
  | .str s => s.toList.enum.map fun p => (Fjp.decRepr p.1, Json.str (String.mk [p.2]))
  | _ => []

/-- JavaScript `{...a, ...b}`: copy `a`'s entries, then `b`'s, later
writes overwriting earlier ones in place. -/
def spreadInto (a b : Json) : Json :=
  Json.obj ((toEntries a ++ toEntries b).foldl (fun acc kv => aset acc kv.1 kv.2) [])

/-- Result of one whole-object-merge `update_state` invocation
(`human-in-the-loop.ts`): reply, mirror afterwards, and the STATE_DELTA
payloads (here token-level patch operations computed by `compare`). -/
structure MergeStep where
  reply : ToolReply
  state : Json
  emitted : List (List Fjp.POp)
deriving DecidableEq

/-- The whole-object-merge `update_state` handler of
`human-in-the-loop.ts`: the new state is the shallow spread of the
updates over the previous document; `compare` yields the delta, and only
a non-empty delta is emitted and committed to the mirror.  The reply is
a success either way. -/
def updateStateMerge (localState : Json) (updates : Json) : MergeStep :=
  let newState := spreadInto localState updates
  let delta := Fjp.compare localState newState
  if delta.length > 0 then ⟨.ok "State updated", newState, [delta]⟩
  else ⟨.ok "State updated", localState, []⟩

/-- AG-UI message roles relevant to run classification. -/
inductive Role where
  | user
  | assistant
  | system
  | tool
deriving DecidableEq

/-- One item of a multimodal content array (`{type: "text", text}` or
anything else). -/
inductive ContentPart where
  | text (s : String)
  | other
deriving DecidableEq

/-- AG-UI message content: a plain string or a content array. -/
inductive MsgContent where
  | str (s : String)
  | parts (ps : List ContentPart)
deriving DecidableEq

/-- An AG-UI conversation message (only the fields the orchestrator
reads). -/
structure Message where
  role : Role
  content : MsgContent
  toolCallId : String := ""
deriving DecidableEq

/-- JavaScript `Array.prototype.findLast`: the last element satisfying
the test. -/
def findLast {α : Type} (p : α → Bool) (l : List α) : Option α :=
  l.reverse.find? p

def isUserOrTool (m : Message) : Bool :=
  m.role == .user || m.role == .tool

/-- The prompt extraction of the agents: a content array contributes the
concatenated text of its `text` items, a plain string is taken as-is. -/
def contentText : MsgContent → String
  | .str s => s
  | .parts ps => String.join (ps.map fun c => match c with | .text s => s | .other => "")

/-- JavaScript string interpolation of the message content as the agents
do in the fallback prompt (an array of content objects renders as
JavaScript array-to-string; tool-result content is a string in
practice). -/
def contentInterp : MsgContent → String
  | .str s => s
  | .parts ps => String.intercalate "," (ps.map fun _ => "[object Object]")

/-- Outcome of the classification step at the top of `run`. -/
inductive RunClass where
  | resumption (toolCallId : String) (toolResult : String)
  | fresh (userPrompt : String)
deriving DecidableEq

/-- Lines 83-98 and 118-120 of the resumable `CopilotAgent.run`: find the
last `user`-or-`tool` message; a `tool` message makes the run a
resumption carrying that message's tool-call id and content, anything
else a fresh turn whose prompt is extracted from the last user
message (empty when there is none). -/
def classifyRun (messages : List Message) : RunClass :=
  match findLast isUserOrTool messages with
  | some m =>
    if m.role == .tool then .resumption m.toolCallId (contentInterp m.content)
    else .fresh (contentText m.content)
  | none => .fresh ""

/-- The classification rule as the specification words it: scan the
conversation's trailing messages for the last message whose role is
`user` or `tool-result`; a tool-result makes the run a resumption,
otherwise it is a fresh turn whose prompt is the concatenated text
content of that last user message. -/
def classifySpec (messages : List Message) : RunClass :=
  match (messages.filter isUserOrTool).getLast? with
  | some m =>
    if m.role == .tool then .resumption m.toolCallId (contentInterp m.content)
    else .fresh (contentText m.content)
  | none => .fresh ""

/-- Events emitted on a run's output stream (AG-UI `BaseEvent`s). -/
inductive AgEvent where
  | runStarted (threadId runId : String)
  | textMessageChunk (messageId delta : String)
  | toolCallChunk (toolCallId toolCallName delta : String)
  | runFinished (threadId runId : String)
  | stateDelta (ops : List Fjp.RawOp)
  | runError (message : String)
deriving DecidableEq

/-- Observable effects of the orchestration code, in program order.  A
stream is identified by the `runId` of the run that opened it. -/
inductive Act where
  | setActiveObserver (threadId runId : String)
  | emit (stream : String) (e : AgEvent)
  | complete (stream : String)
  | subscribe (runId threadId : String)
  | resolvePending (toolCallId result : String)
  | deletePending (toolCallId : String)
  | createPending (toolCallId : String)
  | listSessions (threadId : String)
  | resumeSession (threadId : String)
  | createSession (threadId : String)
  | send (threadId prompt : String)
deriving DecidableEq

/-- The module-level registries of the resumable agents plus the session
listeners and the external session lister's contents.  Sessions are
identified by allocation tokens so that instance identity is
observable. -/
structure ServerState where
  pendingToolCalls : List String
  sessionCache : List (String × Nat)
  nextSession : Nat
  activeObservers : List (String × String)
  listeners : List (String × String)
  externalSessions : List String
deriving DecidableEq

/-- `CopilotAgent.getSession` (resumable variant, lines 273-393): return
the cached session for the thread if present; otherwise query the
external session lister, resume the matching session or create a new
one, and cache it.  Returns the session, the new state, and the actions
performed. -/
def getSession (st : ServerState) (threadId : String) :
    Nat × ServerState × List Act :=
  match alookup st.sessionCache threadId with
  | some s => (s, st, [])
  | none =>
    (st.nextSession,
     { st with
        sessionCache := aset st.sessionCache threadId st.nextSession,
        nextSession := st.nextSession + 1 },
     [Act.listSessions threadId,
      if st.externalSessions.contains threadId then Act.resumeSession threadId
      else Act.createSession threadId])

/-- The session going idle: every listener attached for the thread
forwards RUN_FINISHED on its own stream, completes it, and unsubscribes
itself (the idle handler of `subscribeToSession`). -/
def fireIdle (listeners : List (String × String)) (threadId : String) :
    List Act × List (String × String) :=
  (((listeners.filter fun l => l.1 == threadId).map fun l =>
      [Act.emit l.2 (.runFinished threadId l.2), Act.complete l.2]).flatten,
   listeners.filter fun l => !(l.1 == threadId))

/-- External behavior of the model session during one run: whether it
reaches idle synchronously while the pending promise is being resolved,
and whether it reaches idle after a submitted prompt. -/
structure ExtBehavior where
  idleOnResolve : Bool
  idleAfterSend : Bool
deriving DecidableEq

/-- One run's input (thread id, run id, conversation). -/
structure RunInput where
  threadId : String
  runId : String
  messages : List Message

/-- The fallback prompt synthesized when the pending call or the session
is missing. -/
def fallbackPromptOf (toolCallId toolResult : String) : String :=
  "Tool results with toolCallId " ++ toolCallId ++ " with result: " ++ toolResult

/-- The fresh-turn / fallback execution: attach or create the session,
subscribe this run's stream to it, submit the prompt, and finish the
run when the session goes idle. -/
def executeTurn (st : ServerState) (inp : RunInput) (prompt : String)
    (ext : ExtBehavior) : ServerState × List Act :=
  let g := getSession st inp.threadId
  let st₁ := { g.2.1 with listeners := g.2.1.listeners ++ [(inp.threadId, inp.runId)] }
  let idle :=
    if ext.idleAfterSend then fireIdle st₁.listeners inp.threadId
    else ([], st₁.listeners)
  ({ st₁ with listeners := idle.2 },
   g.2.2 ++ [Act.subscribe inp.runId inp.threadId, Act.send inp.threadId prompt]
     ++ idle.1)

/-- The observable body of the resumable `CopilotAgent.run` /
`SharedStateAgent.run`: register this run's observer as the thread's
active one, emit RUN_STARTED, then branch on the classification.  A
resumption whose pending entry and cached session both exist subscribes
the session's delta/idle listeners FIRST, then resolves the pending
promise (any idle fired synchronously inside the resolve is therefore
delivered to this run's stream) and deletes the registry entry.
Otherwise the tool result is submitted as a synthesized fallback
prompt; a fresh turn submits the extracted user prompt (or the default
placeholder). -/
def runModel (st : ServerState) (inp : RunInput) (ext : ExtBehavior) :
    ServerState × List Act :=
  let st₀ := { st with activeObservers := aset st.activeObservers inp.threadId inp.runId }
  let acts₀ := [Act.setActiveObserver inp.threadId inp.runId,
                Act.emit inp.runId (.runStarted inp.threadId inp.runId)]
  match classifyRun inp.messages with
  | .resumption toolCallId toolResult =>
    if st₀.pendingToolCalls.contains toolCallId &&
        (alookup st₀.sessionCache inp.threadId).isSome then
      let st₁ := { st₀ with listeners := st₀.listeners ++ [(inp.threadId, inp.runId)] }
      let idle :=
        if ext.idleOnResolve then fireIdle st₁.listeners inp.threadId
        else ([], st₁.listeners)
      let st₂ := { st₁ with
        listeners := idle.2,
        pendingToolCalls := st₁.pendingToolCalls.erase toolCallId }
      (st₂,
       acts₀ ++ [Act.subscribe inp.runId inp.threadId,
                 Act.resolvePending toolCallId toolResult]
         ++ idle.1 ++ [Act.deletePending toolCallId])
    else
      let r := executeTurn st₀ inp (fallbackPromptOf toolCallId toolResult) ext
      (r.1, acts₀ ++ r.2)
  | .fresh userPrompt =>
    let r := executeTurn st₀ inp
      (if userPrompt = "" then "user prompt missing. using default" else userPrompt) ext
    (r.1, acts₀ ++ r.2)

/-- `Map.set` on the pending registry, tracked as a presence list. -/
def addKey (l : List String) (k : String) : List String :=
  if l.contains k then l else l ++ [k]

/-- What a human-in-the-loop tool handler invocation returns to the
Copilot SDK: either an immediate diagnostic string (no active stream
binding) or a suspension on the pending entry just created. -/
inductive HandlerOutcome where
  | errorResult (s : String)
  | suspendedOn (toolCallId : String)
deriving DecidableEq

/-- The code after `await`: the handler returns the string the pending
promise was resolved with, unchanged, to the model session. -/
def handlerContinuation (result : String) : String := result

/-- `JSON.stringify` escaping of one character (the common escapes;
exotic control characters are left as-is in the model). -/
def quoteChar (c : Char) : String :=
  if c = '"' then "\\\"" else if c = '\\' then "\\\\"
  else if c = '\n' then "\\n" else if c = '\t' then "\\t"
  else if c = '\r' then "\\r" else String.mk [c]

/-- `JSON.stringify` of a string value. -/
def quoteJson (s : String) : String :=
  "\"" ++ String.join (s.toList.map quoteChar) ++ "\""

mutual

/-- `JSON.stringify` (compact form; the common character escapes). -/
def Json.stringify : Json → String
  | .null => "null"
  | .bool true => "true"
  | .bool false => "false"
  | .num n => if n < 0 then "-" ++ Fjp.decRepr n.natAbs else Fjp.decRepr n.toNat
  | .str s => quoteJson s
  | .arr xs => "[" ++ Json.stringifyList xs ++ "]"
  | .obj es => "\x7b" ++ Json.stringifyEntries es ++ "\x7d"

def Json.stringifyList : List Json → String
  | [] => ""
  | [x] => Json.stringify x
  | x :: y :: xs => Json.stringify x ++ "," ++ Json.stringifyList (y :: xs)

def Json.stringifyEntries : List (String × Json) → String
  | [] => ""
  | [(k, v)] => quoteJson k ++ ":" ++ Json.stringify v
  | (k, v) :: e :: es =>
    quoteJson k ++ ":" ++ Json.stringify v ++ "," ++ Json.stringifyEntries (e :: es)

end

/-- The blocking human-in-the-loop tool handler built by the resumable
agents' `sdkTools` mapping (lines 298-346): read the CURRENTLY active
observer for the owning thread from the registry (not one captured when
the tool was defined); with no binding, return a diagnostic string so
the model turn can conclude; otherwise emit the TOOL_CALL_CHUNK dispatch
notice, signal RUN_FINISHED and complete that stream, create the
pending entry under the invocation's tool-call id, and suspend on it. -/
def sdkToolHandler (activeObservers : List (String × String))
    (pendingToolCalls : List String) (threadId toolCallId toolName : String)
    (args : Json) : HandlerOutcome × List Act × List String :=
  match alookup activeObservers threadId with
  | none => (.errorResult "Error: no active client connection", [], pendingToolCalls)
  | some currentRunId =>
    (.suspendedOn toolCallId,
     [Act.emit currentRunId (.toolCallChunk toolCallId toolName (Json.stringify args)),
      Act.emit currentRunId (.runFinished threadId currentRunId),
      Act.complete currentRunId,
      Act.createPending toolCallId],
     addKey pendingToolCalls toolCallId)

theorem find?_eq_head?_filter {α : Type} (p : α → Bool) (l : List α) :
    l.find? p = (l.filter p).head? := by
  induction l with
  | nil => rfl
  | cons hd t ih =>
    by_cases h : p hd
    · rw [List.find?_cons_of_pos _ h, List.filter_cons_of_pos h, List.head?_cons]
    · rw [List.find?_cons_of_neg _ (by simp [h]), List.filter_cons_of_neg (by simp [h]), ih]

theorem findLast_eq_getLast?_filter {α : Type} (p : α → Bool) (l : List α) :
    findLast p l = (l.filter p).getLast? := by
  rw [findLast, find?_eq_head?_filter, List.filter_reverse, List.head?_reverse]

/-- C8: for every incoming run, the orchestrator's classification — the
`findLast` scan over the messages, treating a trailing `tool` message as
a resumption and otherwise building a fresh-turn prompt from the
concatenated text of the last user message — agrees with the
specification's rule stated over the last user-or-tool-result message of
the conversation. -/
theorem c8_run_classification (messages : List Message) :
    classifyRun messages = classifySpec messages := by
  rw [classifyRun, classifySpec, findLast_eq_getLast?_filter]

theorem fireIdle_emit_mem {ls : List (String × String)} {t r : String}
    (h : (t, r) ∈ ls) : Act.emit r (.runFinished t r) ∈ (fireIdle ls t).1 := by
  rw [fireIdle]
  simp only [List.mem_flatten, List.mem_map]
  exact ⟨[Act.emit r (.runFinished t r), Act.complete r],
    ⟨(t, r), List.mem_filter.mpr ⟨h, by simp⟩, rfl⟩, by simp⟩

theorem fireIdle_shape {ls : List (String × String)} {t : String} {a : Act}
    (h : a ∈ (fireIdle ls t).1) :
    (∃ r, a = Act.emit r (.runFinished t r)) ∨ ∃ r, a = Act.complete r := by
  rw [fireIdle] at h
  simp only [List.mem_flatten, List.mem_map] at h
  rcases h with ⟨block, ⟨l, _, hblock⟩, hmem⟩
  rw [← hblock] at hmem
  rcases List.mem_cons.mp hmem with h1 | h1
  · exact Or.inl ⟨l.2, h1⟩
  · rcases List.mem_cons.mp h1 with h2 | h2
    · exact Or.inr ⟨l.2, h2⟩
    · cases h2

/-- Is this action a resolution of the given pending tool call? -/
def isResolveOf (toolCallId : String) : Act → Bool
  | .resolvePending i _ => i == toolCallId
  | _ => false

theorem fireIdle_countP_resolve (ls : List (String × String)) (t toolCallId : String) :
    (fireIdle ls t).1.countP (isResolveOf toolCallId) = 0 := by
  rw [List.countP_eq_zero]
  intro a ha
  rcases fireIdle_shape ha with ⟨r, hr⟩ | ⟨r, hr⟩ <;> simp [hr, isResolveOf]

/-- C1: in a resumption run where both the pending tool call and the
cached session exist, the trace of `runModel` places the subscribe
action strictly before the resolve action; consequently, even when the
session reaches idle synchronously within the resolve, this run's
stream still receives its RUN_FINISHED event. -/
theorem c1_subscribe_before_resolve (st : ServerState) (inp : RunInput)
    (ext : ExtBehavior) (toolCallId toolResult : String)
    (hcls : classifyRun inp.messages = .resumption toolCallId toolResult)
    (hp : toolCallId ∈ st.pendingToolCalls)
    (hs : (alookup st.sessionCache inp.threadId).isSome = true) :
    ∃ i j, i < j ∧
      (runModel st inp ext).2.get? i = some (Act.subscribe inp.runId inp.threadId) ∧
      (runModel st inp ext).2.get? j = some (Act.resolvePending toolCallId toolResult) ∧
      (ext.idleOnResolve = true →
        Act.emit inp.runId (.runFinished inp.threadId inp.runId) ∈ (runModel st inp ext).2) := by
  refine ⟨2, 3, by omega, ?_, ?_, ?_⟩
  · rw [runModel, hcls]
    simp [hp, hs]
  · rw [runModel, hcls]
    simp [hp, hs]
  · intro hi
    rw [runModel, hcls]
    simp only [hp, hs, Bool.and_self, if_pos, hi, if_true]
    have hm : Act.emit inp.runId (.runFinished inp.threadId inp.runId) ∈
        (fireIdle (st.listeners ++ [(inp.threadId, inp.runId)]) inp.threadId).1 :=
      fireIdle_emit_mem (by simp)
    simp [hp, hs, hi]
    tauto

/-- Is this action a resolution of any pending tool call? -/
def isResolveAct : Act → Bool
  | .resolvePending _ _ => true
  | _ => false

theorem fireIdle_countP_eq_zero (p : Act → Bool)
    (hp₁ : ∀ r e, p (Act.emit r e) = false) (hp₂ : ∀ r, p (Act.complete r) = false)
    (ls : List (String × String)) (t : String) :
    (fireIdle ls t).1.countP p = 0 := by
  rw [List.countP_eq_zero]
  intro a ha
  rcases fireIdle_shape ha with ⟨r, hr⟩ | ⟨r, hr⟩
  · simp [hr, hp₁]
  · simp [hr, hp₂]

theorem executeTurn_no_resolve (st : ServerState) (inp : RunInput) (prompt : String)
    (ext : ExtBehavior) (p : Act → Bool)
    (hp₁ : ∀ r e, p (Act.emit r e) = false) (hp₂ : ∀ r, p (Act.complete r) = false)
    (hp₃ : ∀ t, p (Act.listSessions t) = false) (hp₄ : ∀ t, p (Act.resumeSession t) = false)
    (hp₅ : ∀ t, p (Act.createSession t) = false) (hp₆ : ∀ r t, p (Act.subscribe r t) = false)
    (hp₇ : ∀ t s, p (Act.send t s) = false) :
    (executeTurn st inp prompt ext).2.countP p = 0 := by
  rw [executeTurn, getSession]
  rcases h : alookup st.sessionCache inp.threadId with _ | s <;>
    rcases hi : ext.idleAfterSend <;>
      simp [List.countP_append, List.countP_cons, hp₁, hp₂, hp₃, hp₄, hp₅, hp₆, hp₇,
        apply_ite p] <;>
      (intro a ha; rcases fireIdle_shape ha with ⟨r, hr⟩ | ⟨r, hr⟩ <;> simp [hr, hp₁, hp₂])

theorem executeTurn_send_mem (st : ServerState) (inp : RunInput) (prompt : String)
    (ext : ExtBehavior) :
    Act.send inp.threadId prompt ∈ (executeTurn st inp prompt ext).2 := by
  rw [executeTurn, getSession]
  rcases h : alookup st.sessionCache inp.threadId with _ | s <;> simp

theorem executeTurn_idle_mem (st : ServerState) (inp : RunInput) (prompt : String)
    (ext : ExtBehavior) (hi : ext.idleAfterSend = true) :
    Act.emit inp.runId (.runFinished inp.threadId inp.runId) ∈ (executeTurn st inp prompt ext).2 := by
  rw [executeTurn, getSession]
  have hm : Act.emit inp.runId (.runFinished inp.threadId inp.runId) ∈
      (fireIdle (st.listeners ++ [(inp.threadId, inp.runId)]) inp.threadId).1 :=
    fireIdle_emit_mem (by simp)
  rcases h : alookup st.sessionCache inp.threadId with _ | s <;> simp [hi] <;> tauto

theorem runModel_no_resolve (st : ServerState) (inp : RunInput) (ext : ExtBehavior)
    (toolCallId : String) (h : toolCallId ∉ st.pendingToolCalls) :
    (runModel st inp ext).2.countP (isResolveOf toolCallId) = 0 := by
  have hemit : ∀ r e, isResolveOf toolCallId (Act.emit r e) = false := fun _ _ => rfl
  have hcomp : ∀ r, isResolveOf toolCallId (Act.complete r) = false := fun _ => rfl
  have hexec : ∀ st₂ prompt ext₂,
      (executeTurn st₂ inp prompt ext₂).2.countP (isResolveOf toolCallId) = 0 :=
    fun st₂ prompt ext₂ => executeTurn_no_resolve st₂ inp prompt ext₂ _
      hemit hcomp (fun _ => rfl) (fun _ => rfl) (fun _ => rfl) (fun _ _ => rfl) (fun _ _ => rfl)
  rw [runModel]
  rcases hcls : classifyRun inp.messages with ⟨id₂, res₂⟩ | prompt
  · by_cases hin : id₂ ∈ st.pendingToolCalls ∧
        (alookup st.sessionCache inp.threadId).isSome = true
    · have hne : (id₂ == toolCallId) = false := by
        simp only [beq_eq_false_iff_ne, ne_eq]
        intro hEq
        rw [hEq] at hin
        exact h hin.1
      cases hio : ext.idleOnResolve
      · simp [hin.1, hin.2, hio, List.countP_append, List.countP_cons, isResolveOf, hne]
      · simp [hin.1, hin.2, hio, List.countP_append, List.countP_cons, isResolveOf, hne]
        intro a ha
        rcases fireIdle_shape ha with ⟨r, hr⟩ | ⟨r, hr⟩ <;> simp [hr]
    · rcases Decidable.not_and_iff_or_not.mp hin with hc | hc
      · simp [hc, List.countP_cons, isResolveOf, hexec]
      · simp [hc, List.countP_cons, isResolveOf, hexec]
  · simp [List.countP_cons, isResolveOf, hexec]

/-- C2: a resumption run that consumes a pending tool call resolves the
slot exactly once and removes the registry entry in the same step:
afterwards the tool-call id is gone from the registry, and any later
run — whatever its input — performs no resolution for that id. -/
theorem c2_pending_consumed_once (st : ServerState) (inp : RunInput) (ext : ExtBehavior)
    (toolCallId toolResult : String)
    (hcls : classifyRun inp.messages = .resumption toolCallId toolResult)
    (hp : toolCallId ∈ st.pendingToolCalls)
    (hs : (alookup st.sessionCache inp.threadId).isSome = true)
    (hn : st.pendingToolCalls.Nodup) :
    toolCallId ∉ (runModel st inp ext).1.pendingToolCalls ∧
    (runModel st inp ext).2.countP (isResolveOf toolCallId) = 1 ∧
    ∀ inp₂ ext₂,
      (runModel (runModel st inp ext).1 inp₂ ext₂).2.countP (isResolveOf toolCallId) = 0 := by
  have hemit : ∀ r e, isResolveOf toolCallId (Act.emit r e) = false := fun _ _ => rfl
  have hcomp : ∀ r, isResolveOf toolCallId (Act.complete r) = false := fun _ => rfl
  have hgone : toolCallId ∉ (runModel st inp ext).1.pendingToolCalls := by
    rw [runModel, hcls]
    simp only [hp, hs]
    intro hmem
    rcases (List.Nodup.mem_erase_iff hn).mp (by simpa [hp, hs] using hmem) with ⟨hne, _⟩
    exact hne rfl
  refine ⟨hgone, ?_, ?_⟩
  · rw [runModel, hcls]
    cases hio : ext.idleOnResolve
    · simp [hp, hs, hio, List.countP_append, List.countP_cons, isResolveOf]
    · simp [hp, hs, hio, List.countP_append, List.countP_cons, isResolveOf]
      intro a ha
      rcases fireIdle_shape ha with ⟨r, hr⟩ | ⟨r, hr⟩ <;> simp [hr]
  · intro inp₂ ext₂
    exact runModel_no_resolve _ inp₂ ext₂ toolCallId hgone

/-- C4: a resumption run whose pending tool call or cached session is
missing resolves nothing at all; it submits the synthesized fallback
prompt describing the tool result as a fresh turn, and (when the session
reaches idle after the submitted turn) the run still finishes normally
with RUN_FINISHED on its own stream. -/
theorem c4_fallback_path (st : ServerState) (inp : RunInput) (ext : ExtBehavior)
    (toolCallId toolResult : String)
    (hcls : classifyRun inp.messages = .resumption toolCallId toolResult)
    (hmiss : toolCallId ∉ st.pendingToolCalls ∨ alookup st.sessionCache inp.threadId = none) :
    (runModel st inp ext).2.countP isResolveAct = 0 ∧
    Act.send inp.threadId (fallbackPromptOf toolCallId toolResult) ∈ (runModel st inp ext).2 ∧
    (ext.idleAfterSend = true →
      Act.emit inp.runId (.runFinished inp.threadId inp.runId) ∈ (runModel st inp ext).2) := by
  have hexec : ∀ st₂ prompt,
      (executeTurn st₂ inp prompt ext).2.countP isResolveAct = 0 :=
    fun st₂ prompt => executeTurn_no_resolve st₂ inp prompt ext _
      (fun _ _ => rfl) (fun _ => rfl) (fun _ => rfl) (fun _ => rfl) (fun _ => rfl)
      (fun _ _ => rfl) (fun _ _ => rfl)
  rw [runModel, hcls]
  rcases hmiss with hc | hc
  · refine ⟨?_, ?_, ?_⟩
    · simp [hc, List.countP_cons, isResolveAct, hexec]
    · simp [hc, executeTurn_send_mem]
    · intro hi
      simp [hc, executeTurn_idle_mem _ inp _ ext hi]
  · refine ⟨?_, ?_, ?_⟩
    · simp [hc, List.countP_cons, isResolveAct, hexec]
    · simp [hc, executeTurn_send_mem]
    · intro hi
      simp [hc, executeTurn_idle_mem _ inp _ ext hi]

/-- C7: the session registry keeps at most one session per thread:
`getSession` called twice for the same thread returns the very same
session instance with no further external actions; a cached thread is
answered from the cache without querying the session lister, and only an
uncached thread queries the lister and then resumes the listed session
or creates a fresh one. -/
theorem c7_session_registry (st : ServerState) (threadId : String) :
    ((getSession (getSession st threadId).2.1 threadId).1 = (getSession st threadId).1 ∧
     (getSession (getSession st threadId).2.1 threadId).2.1 = (getSession st threadId).2.1 ∧
     (getSession (getSession st threadId).2.1 threadId).2.2 = []) ∧
    (∀ s, alookup st.sessionCache threadId = some s →
      getSession st threadId = (s, st, [])) ∧
    (alookup st.sessionCache threadId = none →
      (getSession st threadId).2.2 =
        [Act.listSessions threadId,
         if st.externalSessions.contains threadId then Act.resumeSession threadId
         else Act.createSession threadId]) := by
  refine ⟨?_, ?_, ?_⟩
  · rcases h : alookup st.sessionCache threadId with _ | s
    · have h1 : getSession st threadId =
          (st.nextSession,
           { st with
              sessionCache := aset st.sessionCache threadId st.nextSession,
              nextSession := st.nextSession + 1 },
           [Act.listSessions threadId,
            if st.externalSessions.contains threadId then Act.resumeSession threadId
            else Act.createSession threadId]) := by
        rw [getSession, h]
      rw [h1, getSession]
      simp [alookup_aset_self]
    · have h1 : getSession st threadId = (s, st, []) := by rw [getSession, h]
      rw [h1, getSession, h]
      exact ⟨rfl, rfl, rfl⟩
  · intro s h
    rw [getSession, h]
  · intro h
    rw [getSession, h]

/-- C3: a human-in-the-loop tool handler invoked while a stream binding
exists emits, in order, the TOOL_CALL_CHUNK dispatch notice (tool-call
id, tool name, serialized arguments), then RUN_FINISHED, then completes
that stream, then creates the pending entry under the invocation's
tool-call id and suspends on it; the eventual resolution value is
returned to the model session unchanged. -/
theorem c3_hitl_handler (activeObservers : List (String × String))
    (pendingToolCalls : List String) (threadId toolCallId toolName : String)
    (args : Json) (r : String)
    (h : alookup activeObservers threadId = some r) :
    sdkToolHandler activeObservers pendingToolCalls threadId toolCallId toolName args =
      (.suspendedOn toolCallId,
       [Act.emit r (.toolCallChunk toolCallId toolName (Json.stringify args)),
        Act.emit r (.runFinished threadId r),
        Act.complete r,
        Act.createPending toolCallId],
       addKey pendingToolCalls toolCallId) ∧
    ∀ result, handlerContinuation result = result := by
  exact ⟨by rw [sdkToolHandler, h], fun _ => rfl⟩

/-- C9: a tool handler resolves the thread's stream binding from the
registry at invocation time: its emissions all target the stream the
registry holds at call time (whatever run attached it), and when no
binding exists the handler returns the diagnostic failure value to the
model session — a value, not an exception — leaving the pending registry
untouched. -/
theorem c9_binding_at_invocation_time (activeObservers : List (String × String))
    (pendingToolCalls : List String) (threadId toolCallId toolName : String)
    (args : Json) :
    (alookup activeObservers threadId = none →
      sdkToolHandler activeObservers pendingToolCalls threadId toolCallId toolName args =
        (.errorResult "Error: no active client connection", [], pendingToolCalls)) ∧
    (∀ r, alookup activeObservers threadId = some r →
      ∀ s e, Act.emit s e ∈
        (sdkToolHandler activeObservers pendingToolCalls threadId toolCallId toolName args).2.1 →
        s = r) := by
  constructor
  · intro h
    rw [sdkToolHandler, h]
  · intro r h s e hmem
    rw [sdkToolHandler, h] at hmem
    simp only [List.mem_cons] at hmem
    rcases hmem with h1 | h1 | h1 | h1 | h1
    · cases h1; rfl
    · cases h1; rfl
    · cases h1
    · cases h1
    · cases h1

def stW : ServerState :=
  { pendingToolCalls := ["call1"], sessionCache := [("t1", 0)], nextSession := 1,
    activeObservers := [("t1", "r1")], listeners := [], externalSessions := ["t1"] }

def inpW : RunInput :=
  { threadId := "t1", runId := "r2",
    messages := [{ role := .user, content := .str "what is the weather" },
                 { role := .tool, content := .str "18C", toolCallId := "call1" }] }

def extW : ExtBehavior := { idleOnResolve := true, idleAfterSend := true }

def argW : Json := .obj [("city", .str "Lyon")]

theorem c1_witness :
    ∃ i j, i < j ∧
      (runModel stW inpW extW).2.get? i = some (Act.subscribe "r2" "t1") ∧
      (runModel stW inpW extW).2.get? j = some (Act.resolvePending "call1" "18C") ∧
      Act.emit "r2" (.runFinished "t1" "r2") ∈ (runModel stW inpW extW).2 := by
  obtain ⟨i, j, hij, h1, h2, h3⟩ :=
    c1_subscribe_before_resolve stW inpW extW "call1" "18C" rfl (by simp [stW]) rfl
  exact ⟨i, j, hij, h1, h2, h3 rfl⟩

theorem c2_witness :
    "call1" ∉ (runModel stW inpW extW).1.pendingToolCalls ∧
    (runModel stW inpW extW).2.countP (isResolveOf "call1") = 1 ∧
    (runModel (runModel stW inpW extW).1 inpW extW).2.countP (isResolveOf "call1") = 0 := by
  obtain ⟨h1, h2, h3⟩ :=
    c2_pending_consumed_once stW inpW extW "call1" "18C" rfl (by simp [stW]) rfl (by simp [stW])
  exact ⟨h1, h2, h3 inpW extW⟩

theorem c3_witness :
    sdkToolHandler [("t1", "r1")] [] "t1" "call1" "fetch_weather" argW =
      (.suspendedOn "call1",
       [Act.emit "r1" (.toolCallChunk "call1" "fetch_weather" (Json.stringify argW)),
        Act.emit "r1" (.runFinished "t1" "r1"),
        Act.complete "r1",
        Act.createPending "call1"],
       addKey [] "call1") ∧
    handlerContinuation "18C" = "18C" := by
  have h := c3_hitl_handler [("t1", "r1")] [] "t1" "call1" "fetch_weather" argW "r1"
    (by simp [alookup])
  exact ⟨h.1, h.2 "18C"⟩

def stW₂ : ServerState := { stW with pendingToolCalls := [] }

theorem c4_witness :
    (runModel stW₂ inpW extW).2.countP isResolveAct = 0 ∧
    Act.send "t1" (fallbackPromptOf "call1" "18C") ∈ (runModel stW₂ inpW extW).2 ∧
    Act.emit "r2" (.runFinished "t1" "r2") ∈ (runModel stW₂ inpW extW).2 := by
  obtain ⟨h1, h2, h3⟩ :=
    c4_fallback_path stW₂ inpW extW "call1" "18C" rfl (Or.inl (by simp [stW₂, stW]))
  exact ⟨h1, h2, h3 rfl⟩

theorem c7_witness :
    getSession stW "t1" = (0, stW, []) ∧
    (getSession (getSession stW "t1").2.1 "t1").1 = (getSession stW "t1").1 := by
  have h := c7_session_registry stW "t1"
  exact ⟨h.2.1 0 (by simp [stW, alookup]), h.1.1⟩

theorem c9_witness :
    sdkToolHandler [] [] "t1" "call1" "fetch_weather" argW =
      (.errorResult "Error: no active client connection", [], []) ∧
    "r1" = "r1" := by
  have h1 := (c9_binding_at_invocation_time [] [] "t1" "call1" "fetch_weather" argW).1
    (by simp [alookup])
  have h2 := (c9_binding_at_invocation_time [("t1", "r1")] [] "t1" "call1" "fetch_weather"
    argW).2 "r1" (by simp [alookup]) "r1" (.runFinished "t1" "r1")
    (by rw [sdkToolHandler]; simp [alookup])
  exact ⟨h1, h2⟩

/-- A raw operation the explicit-patch validation must reject: a missing
`op` or `path` field, or an `add`/`replace` without a `value`. -/
def badOpP (r : Fjp.RawOp) : Prop :=
  r.op = none ∨ r.path = none ∨
    ((r.op = some "add" ∨ r.op = some "replace") ∧ r.value = none)

theorem validateOps_isSome_of_bad :
    ∀ ops : List Fjp.RawOp, (∃ r ∈ ops, badOpP r) → ∃ e, validateOps ops = some e := by
  intro ops
  induction ops with
  | nil => rintro ⟨r, hr, _⟩; cases hr
  | cons hd t ih =>
    rintro ⟨r, hr, hbad⟩
    rcases List.mem_cons.mp hr with h1 | h1
    · subst h1
      rcases hbad with h | h | h
      · have hf : Fjp.falsyStr r.op = true := by rw [h]; rfl
        simp [validateOps, hf]
      · have hf : Fjp.falsyStr r.path = true := by rw [h]; rfl
        simp [validateOps, hf]
      · cases hfb : (Fjp.falsyStr r.op || Fjp.falsyStr r.path)
        · have hsb : ((r.op == some "add" || r.op == some "replace") && r.value == none) = true := by
            rcases h.1 with ho | ho <;> simp [ho, h.2]
          simp [validateOps, hfb, hsb]
        · simp [validateOps, hfb]
    · cases hfb : (Fjp.falsyStr hd.op || Fjp.falsyStr hd.path)
      · cases hsb : ((hd.op == some "add" || hd.op == some "replace") && hd.value == none)
        · have hrec := ih ⟨r, h1, hbad⟩
          simpa [validateOps, hfb, hsb] using hrec
        · simp [validateOps, hfb, hsb]
      · simp [validateOps, hfb]

/-- C5: a batch of explicit-patch operations in which any operation
lacks an `op` or `path` field, or any `add`/`replace` operation lacks a
`value`, is rejected wholesale: the handler returns a descriptive
structured failure, emits no STATE_DELTA, applies nothing, and leaves
the state mirror exactly unchanged. -/
theorem c5_patch_validation (st : Json) (ops : List Fjp.RawOp)
    (h : ∃ r ∈ ops, badOpP r) :
    ∃ e, updateStatePatch st (some ops) = ⟨.fail e, st, []⟩ := by
  have hex := h
  obtain ⟨r, hr, _⟩ := h
  have hne : ¬ops.length = 0 := by
    cases ops
    · cases hr
    · simp
  obtain ⟨e, he⟩ := validateOps_isSome_of_bad ops hex
  refine ⟨e, ?_⟩
  rw [updateStatePatch]
  simp [hne, he]

def stJ : Json := .obj [("recipe", .obj [("title", .str "Pie"), ("servings", .num 4)])]

theorem c5_witness :
    ∃ e, updateStatePatch stJ (some [⟨some "replace", some "/recipe/title", none⟩]) =
      ⟨.fail e, stJ, []⟩ :=
  c5_patch_validation stJ [⟨some "replace", some "/recipe/title", none⟩]
    ⟨⟨some "replace", some "/recipe/title", none⟩, by simp,
     Or.inr (Or.inr ⟨Or.inr rfl, rfl⟩)⟩

theorem alookup_append {α : Type} (l₁ l₂ : List (String × α)) (k : String) :
    alookup (l₁ ++ l₂) k =
      match alookup l₁ k with
      | some v => some v
      | none => alookup l₂ k := by
  induction l₁ with
  | nil => simp [alookup]
  | cons hd t ih =>
    by_cases hk : hd.1 = k
    · simp [alookup, hk]
    · simp [alookup, hk, ih]

theorem alookup_spread_fold (l acc : List (String × Json)) (k : String) :
    alookup (l.foldl (fun a kv => aset a kv.1 kv.2) acc) k =
      match alookup l.reverse k with
      | some v => some v
      | none => alookup acc k := by
  induction l generalizing acc with
  | nil => simp [alookup]
  | cons hd t ih =>
    rw [List.foldl_cons, ih, List.reverse_cons, alookup_append]
    rcases h : alookup t.reverse k with _ | v
    · by_cases hk : hd.1 = k
      · subst hk
        simp [alookup, alookup_aset_self]
      · simp [alookup, hk, alookup_aset_ne _ _ _ _ hk]
    · rfl

theorem alookup_reverse_nodup {α : Type} (l : List (String × α))
    (hn : nodupKeysB l = true) (k : String) : alookup l.reverse k = alookup l k := by
  induction l with
  | nil => rfl
  | cons hd t ih =>
    simp only [nodupKeysB, Bool.and_eq_true] at hn
    rw [List.reverse_cons, alookup_append, ih hn.2]
    by_cases hk : hd.1 = k
    · subst hk
      rw [Option.isNone_iff_eq_none] at hn
      simp [alookup, hn.1]
    · rcases h : alookup t k with _ | v
      · simp [alookup, hk, h]
      · simp [alookup, hk, h]

/-- C10: the whole-object-merge `update_state` computes the new document
as a shallow top-level spread of the updates over the previous one:
every key present in the updates carries the update's entire value
(even when both sides are nested objects — no deep merge), every other
key keeps its previous value; and whenever a delta is emitted the
handler's new mirror is exactly that spread. -/
theorem c10_shallow_spread (as us : List (String × Json))
    (hna : nodupKeysB as = true) (hnu : nodupKeysB us = true) :
    (∀ k, Fjp.jsGet (spreadInto (.obj as) (.obj us)) k =
      match alookup us k with
      | some v => some v
      | none => alookup as k) ∧
    (∀ d, (updateStateMerge (.obj as) (.obj us)).emitted = [d] →
      (updateStateMerge (.obj as) (.obj us)).state = spreadInto (.obj as) (.obj us)) := by
  constructor
  · intro k
    rw [spreadInto]
    simp only [toEntries, Fjp.jsGet]
    rw [alookup_spread_fold, List.reverse_append, alookup_append,
      alookup_reverse_nodup as hna, alookup_reverse_nodup us hnu]
    rcases hu : alookup us k with _ | v
    · rcases ha : alookup as k with _ | w <;> simp [alookup]
    · rfl
  · intro d hd
    rw [updateStateMerge] at hd ⊢
    by_cases hlen : (Fjp.compare (Json.obj as) (spreadInto (.obj as) (.obj us))).length > 0
    · simp only [hlen, if_pos]
    · simp only [hlen, if_neg, if_false] at hd
      cases hd

def usJ : Json := .obj [("recipe", .obj [("title", .str "Tart")])]

theorem c10_witness :
    (Fjp.jsGet (spreadInto stJ usJ) "recipe" = some (.obj [("title", .str "Tart")]) ∧
     Fjp.jsGet (spreadInto stJ usJ) "extra" = none) ∧
    "ok" = "ok" := by
  have h := c10_shallow_spread
    [("recipe", .obj [("title", .str "Pie"), ("servings", .num 4)])]
    [("recipe", .obj [("title", .str "Tart")])] (by simp [nodupKeysB, alookup]) (by simp [nodupKeysB, alookup])
  constructor
  · constructor
    · have h1 := h.1 "recipe"
      rw [show stJ = Json.obj [("recipe", .obj [("title", .str "Pie"), ("servings", .num 4)])] from rfl,
        show usJ = Json.obj [("recipe", .obj [("title", .str "Tart")])] from rfl]
      rw [h1]
      simp [alookup]
    · have h1 := h.1 "extra"
      rw [show stJ = Json.obj [("recipe", .obj [("title", .str "Pie"), ("servings", .num 4)])] from rfl,
        show usJ = Json.obj [("recipe", .obj [("title", .str "Tart")])] from rfl]
      rw [h1]
      simp [alookup]
  · rfl

namespace Fjp

/-- Prepend a path to an operation (how `_generate`'s nested calls place
their operations under the parent path). -/
def shiftOp (p : List String) (o : POp) : POp := ⟨o.op, p ++ o.path, o.value⟩

theorem shiftOp_shiftOp (p q : List String) (o : POp) :
    shiftOp p (shiftOp q o) = shiftOp (p ++ q) o := by
  simp [shiftOp]

theorem shiftOp_nil (o : POp) : shiftOp [] o = o := by
  simp [shiftOp]

theorem applyPOps_append (d : Json) (l₁ l₂ : List POp) :
    applyPOps d (l₁ ++ l₂) =
      match applyPOps d l₁ with
      | .ok d₂ => applyPOps d₂ l₂
      | .error e => .error e := by
  induction l₁ generalizing d with
  | nil => simp [applyPOps]
  | cons hd t ih =>
    rw [List.cons_append, applyPOps, applyPOps]
    rcases applyOp d hd.op hd.path hd.value with e | d₂
    · rfl
    · exact ih d₂

theorem aset_aset {α : Type} (l : List (String × α)) (k : String) (v w : α) :
    aset (aset l k v) k w = aset l k w := by
  induction l with
  | nil => simp [aset]
  | cons hd t ih =>
    by_cases hk : hd.1 = k
    · simp [aset, hk]
    · simp [aset, hk, ih]

theorem alookup_eq_none_iff {α : Type} (l : List (String × α)) (k : String) :
    alookup l k = none ↔ k ∉ l.map Prod.fst := by
  induction l with
  | nil => simp [alookup]
  | cons hd t ih =>
    by_cases hk : hd.1 = k
    · simp [alookup, hk]
    · simp only [List.map_cons, List.mem_cons]
      rw [show alookup (hd :: t) k = alookup t k by simp [alookup, hk], ih]
      constructor
      · intro h
        rintro (h1 | h1)
        · exact hk h1.symm
        · exact h h1
      · intro h h1
        exact h (Or.inr h1)

theorem nodup_map_fst_of_nodupKeysB {α : Type} (l : List (String × α))
    (hn : nodupKeysB l = true) : (l.map Prod.fst).Nodup := by
  induction l with
  | nil => simp
  | cons hd t ih =>
    simp only [nodupKeysB, Bool.and_eq_true] at hn
    simp only [List.map_cons, List.nodup_cons]
    refine ⟨?_, ih hn.2⟩
    rw [← alookup_eq_none_iff, ← Option.isNone_iff_eq_none]
    exact hn.1

theorem digitVal_digitChar {d : Nat} (h : d < 10) : digitVal (digitChar d) = some d := by
  interval_cases d <;> rfl

theorem parseIdxCore_append (l₁ l₂ : List Char) (acc : Nat) :
    parseIdxCore (l₁ ++ l₂) acc =
      match parseIdxCore l₁ acc with
      | some m => parseIdxCore l₂ m
      | none => none := by
  induction l₁ generalizing acc with
  | nil => simp [parseIdxCore]
  | cons hd t ih =>
    rw [List.cons_append, parseIdxCore, parseIdxCore]
    rcases digitVal hd with _ | d
    · rfl
    · exact ih _

theorem decReprCore_ne_nil (f n : Nat) (h : 0 < f) : decReprCore f n ≠ [] := by
  cases f with
  | zero => omega
  | succ f₂ =>
    rw [decReprCore]
    by_cases hn : n < 10
    · simp [hn]
    · simp [hn]

theorem decReprCore_parse : ∀ (f n acc : Nat), n < f →
    parseIdxCore (decReprCore f n) acc =
      some (acc * 10 ^ (decReprCore f n).length + n) := by
  intro f
  induction f with
  | zero => intro n acc h; omega
  | succ f₂ ih =>
    intro n acc h
    rw [decReprCore]
    by_cases hn : n < 10
    · simp only [hn, if_pos]
      simp [parseIdxCore, digitVal_digitChar hn]
    · simp only [hn, if_neg, ite_false]
      have hrec : n / 10 < f₂ := by omega
      rw [parseIdxCore_append, ih (n / 10) acc hrec]
      simp only [parseIdxCore, digitVal_digitChar (Nat.mod_lt n (by omega))]
      have hlen : (decReprCore f₂ (n / 10) ++ [digitChar (n % 10)]).length =
          (decReprCore f₂ (n / 10)).length + 1 := by simp
      rw [hlen, pow_succ]
      have hkey : (acc * 10 ^ (decReprCore f₂ (n / 10)).length + n / 10) * 10 + n % 10 =
          acc * (10 ^ (decReprCore f₂ (n / 10)).length * 10) + n := by
        have hmod := Nat.div_add_mod n 10
        ring_nf
        omega
      rw [hkey]

theorem parseIdx_decRepr (n : Nat) : parseIdx (decRepr n) = some n := by
  rw [decRepr, parseIdx]
  have h0 := decReprCore_parse (n + 1) n 0 (by omega)
  rcases hc : decReprCore (n + 1) n with _ | ⟨c, cs⟩
  · exact absurd hc (decReprCore_ne_nil _ _ (by omega))
  · rw [hc] at h0
    simpa [String.toList] using h0

theorem decRepr_ne_dash (n : Nat) : decRepr n ≠ "-" := by
  intro h
  have : parseIdx "-" = some n := by rw [← h]; exact parseIdx_decRepr n
  rw [show parseIdx "-" = none from rfl] at this
  cases this

end Fjp

namespace Fjp

theorem sizeOf_json_pos (j : Json) : 0 < sizeOf j := by
  cases j <;> simp

theorem genAdd_shift (m o : Json) (p : List String) (keys : List String) :
    genAdd m o p keys = (genAdd m o [] keys).map (shiftOp p) := by
  induction keys with
  | nil => simp [genAdd]
  | cons k t ih =>
    simp only [genAdd, List.map_append, ih]
    rcases jsGet m k with _ | ov <;> rcases jsGet o k with _ | nv <;> simp [shiftOp]

theorem genAdd_append (m o : Json) (p : List String) (l₁ l₂ : List String) :
    genAdd m o p (l₁ ++ l₂) = genAdd m o p l₁ ++ genAdd m o p l₂ := by
  induction l₁ with
  | nil => simp [genAdd]
  | cons k t ih => simp [genAdd, ih]

theorem genOld_append (m o : Json) (p : List String) (l₁ l₂ : List String) :
    genOld m o p (l₁ ++ l₂) =
      ((genOld m o p l₁).1 ++ (genOld m o p l₂).1,
       (genOld m o p l₁).2 || (genOld m o p l₂).2) := by
  induction l₁ with
  | nil => simp [genOld]
  | cons k t ih =>
    rw [List.cons_append, genOld, genOld, ih]
    simp [Bool.or_assoc]

theorem gen_shift : ∀ (N : Nat) (m : Json), sizeOf m ≤ N → ∀ (o : Json) (p : List String),
    (generate m o p = (generate m o []).map (shiftOp p)) ∧
    (∀ keys, (genOld m o p keys).1 = ((genOld m o [] keys).1).map (shiftOp p) ∧
             (genOld m o p keys).2 = (genOld m o [] keys).2) := by
  intro N
  induction N with
  | zero =>
    intro m hm
    exact absurd hm (by have := sizeOf_json_pos m; omega)
  | succ N ihN =>
    intro m hm o p
    have hgenOld : ∀ keys, (genOld m o p keys).1 = ((genOld m o [] keys).1).map (shiftOp p) ∧
        (genOld m o p keys).2 = (genOld m o [] keys).2 := by
      intro keys
      induction keys with
      | nil => simp [genOld]
      | cons k t ihk =>
        rw [genOld, genOld]
        rcases hov : jsGet m k with _ | oldVal
        · simp only [hov, List.map_append, ihk.1, ihk.2, List.nil_append, List.map_nil]
          exact ⟨by first | rfl | trivial, by first | rfl | trivial⟩
        · simp only [hov]
          rcases hnv : jsGet o k with _ | newVal
          · by_cases hmm2 : (isArrJ m == isArrJ o) = true
            · simp only [hmm2, if_pos, List.map_append, ihk.1, ihk.2]
              simp [shiftOp]
            · simp only [hmm2, if_neg, ite_false, List.map_append, ihk.1, ihk.2]
              simp [shiftOp]
          · by_cases hcont : (isContainer oldVal && isContainer newVal &&
                (isArrJ oldVal == isArrJ newVal)) = true
            · simp only [hcont, dif_pos, List.map_append, ihk.1, ihk.2, List.nil_append]
              have hsz : sizeOf oldVal ≤ N := by
                have := jsGet_sizeOf hov (by
                  simp only [Bool.and_eq_true] at hcont
                  exact hcont.1.1)
                omega
              rw [(ihN oldVal hsz newVal (p ++ [k])).1, (ihN oldVal hsz newVal [k]).1,
                List.map_map]
              have hcomp : (shiftOp p ∘ shiftOp [k]) = shiftOp (p ++ [k]) := by
                funext x
                simp [shiftOp]
              rw [hcomp]
              exact ⟨by first | rfl | trivial, by first | rfl | trivial⟩
            · simp only [hcont, dif_neg, List.map_append, ihk.1, ihk.2]
              by_cases heq : oldVal = newVal
              · simp [heq]
              · simp [heq, shiftOp]
    refine ⟨?_, hgenOld⟩
    rw [generate, generate]
    simp only [(hgenOld _).1, (hgenOld _).2]
    by_cases hcond : (!(genOld m o [] (jsKeys m).reverse).2 &&
        (jsKeys o).length == (jsKeys m).length) = true
    · rw [if_pos hcond, if_pos hcond]
    · rw [if_neg hcond, if_neg hcond, genAdd_shift, List.map_append]

end Fjp

namespace Fjp

theorem genAdd_path (m o : Json) (p : List String) (keys : List String) (op : POp)
    (h : op ∈ genAdd m o p keys) : ∃ k, op.path = p ++ [k] ∧ op.op = "add" := by
  induction keys with
  | nil => cases h
  | cons k t ih =>
    rw [genAdd] at h
    rcases List.mem_append.mp h with h1 | h1
    · rcases hov : jsGet m k with _ | ov <;> rw [hov] at h1 <;>
        rcases hnv : jsGet o k with _ | nv <;> rw [hnv] at h1
      · cases h1
      · rcases List.mem_cons.mp h1 with h2 | h2
        · exact ⟨k, by rw [h2], by rw [h2]⟩
        · cases h2
      · cases h1
      · cases h1
    · exact ih h1

end Fjp

namespace Fjp

/-- One step of the reversed-key pass when the key is absent from the
mirror (never the case for keys taken from the mirror itself). -/
theorem genOld_cons_none (m o : Json) (p : List String) (k : String)
    (t : List String) (hov : jsGet m k = none) :
    genOld m o p (k :: t) = genOld m o p t := by
  rw [genOld]
  split
  · simp
  · next oldVal hov2 =>
    rw [hov] at hov2
    cases hov2

/-- One step of the reversed-key pass for a key present in the mirror,
with the dependent match replaced by a plain one. -/
theorem genOld_cons_some (m o : Json) (p : List String) (k : String)
    (t : List String) (oldVal : Json) (hov : jsGet m k = some oldVal) :
    genOld m o p (k :: t) =
      (let step : List POp × Bool :=
        match jsGet o k with
        | some newVal =>
          if (isContainer oldVal && isContainer newVal &&
              (isArrJ oldVal == isArrJ newVal)) = true then
            (generate oldVal newVal (p ++ [k]), false)
          else if oldVal ≠ newVal then
            ([⟨"replace", p ++ [k], some newVal⟩], false)
          else ([], false)
        | none =>
          if (isArrJ m == isArrJ o) = true then ([⟨"remove", p ++ [k], none⟩], true)
          else ([⟨"replace", p, some o⟩], false)
      (step.1 ++ (genOld m o p t).1, step.2 || (genOld m o p t).2)) := by
  rw [genOld]
  split
  · next hov2 =>
    rw [hov] at hov2
    cases hov2
  · next oldVal₂ hov2 =>
    rw [hov] at hov2
    injection hov2 with hov3
    subst hov3
    rcases hnv : jsGet o k with _ | newVal
    · simp only [hnv]
    · simp only [hnv]
      by_cases hcont : (isContainer oldVal && isContainer newVal &&
          (isArrJ oldVal == isArrJ newVal)) = true
      · rw [dif_pos hcont, if_pos hcont]
      · rw [dif_neg hcont, if_neg hcont]

theorem gen_path : ∀ (N : Nat) (m : Json), sizeOf m ≤ N →
    ∀ (o : Json) (p : List String) (op : POp),
    (op ∈ generate m o p → ∃ q, op.path = p ++ q ∧ (q = [] → op.op = "replace")) ∧
    (∀ keys, op ∈ (genOld m o p keys).1 →
      ∃ q, op.path = p ++ q ∧ (q = [] → op.op = "replace")) := by
  intro N
  induction N with
  | zero =>
    intro m hm
    exact absurd hm (by have := sizeOf_json_pos m; omega)
  | succ N ihN =>
    intro m hm o p op
    have hgenOld : ∀ keys, op ∈ (genOld m o p keys).1 →
        ∃ q, op.path = p ++ q ∧ (q = [] → op.op = "replace") := by
      intro keys
      induction keys with
      | nil => intro h; simp [genOld] at h
      | cons k t ihk =>
        intro h
        rcases hov : jsGet m k with _ | oldVal
        · rw [genOld_cons_none _ _ _ _ _ hov] at h
          exact ihk h
        · rw [genOld_cons_some _ _ _ _ _ _ hov] at h
          rcases List.mem_append.mp h with h1 | h1
          · rcases hnv : jsGet o k with _ | newVal
            · simp only [hnv] at h1
              by_cases hmm2 : (isArrJ m == isArrJ o) = true
              · rw [if_pos hmm2] at h1
                rcases List.mem_cons.mp h1 with h2 | h2
                · exact ⟨[k], by rw [h2], by intro hq; cases hq⟩
                · cases h2
              · rw [if_neg hmm2] at h1
                rcases List.mem_cons.mp h1 with h2 | h2
                · exact ⟨[], by rw [h2]; simp, fun _ => by rw [h2]⟩
                · cases h2
            · simp only [hnv] at h1
              by_cases hcont : (isContainer oldVal && isContainer newVal &&
                  (isArrJ oldVal == isArrJ newVal)) = true
              · rw [if_pos hcont] at h1
                have hsz : sizeOf oldVal ≤ N := by
                  have := jsGet_sizeOf hov (by
                    simp only [Bool.and_eq_true] at hcont
                    exact hcont.1.1)
                  omega
                obtain ⟨q, hq, _⟩ := (ihN oldVal hsz newVal (p ++ [k]) op).1 h1
                exact ⟨[k] ++ q, by rw [hq, List.append_assoc], by intro hqq; cases hqq⟩
              · rw [if_neg hcont] at h1
                by_cases heq : oldVal = newVal
                · rw [if_neg (by simp [heq])] at h1
                  cases h1
                · rw [if_pos (by simp [heq])] at h1
                  rcases List.mem_cons.mp h1 with h2 | h2
                  · exact ⟨[k], by rw [h2], by intro hq; cases hq⟩
                  · cases h2
          · exact ihk h1
    refine ⟨?_, hgenOld⟩
    intro h
    rw [generate] at h
    by_cases hcond : (!(genOld m o p (jsKeys m).reverse).2 &&
        (jsKeys o).length == (jsKeys m).length) = true
    · rw [if_pos hcond] at h
      exact hgenOld _ h
    · rw [if_neg hcond] at h
      rcases List.mem_append.mp h with h1 | h1
      · exact hgenOld _ h1
      · obtain ⟨k, hk, _⟩ := genAdd_path m o p (jsKeys o) op h1
        exact ⟨[k], hk, by intro hq; cases hq⟩

end Fjp

namespace Fjp

theorem aset_eq_self_of_alookup {α : Type} (l : List (String × α)) (k : String) (v : α)
    (h : alookup l k = some v) : aset l k v = l := by
  induction l with
  | nil => simp [alookup] at h
  | cons hd t ih =>
    by_cases hk : hd.1 = k
    · subst hk
      simp only [alookup, if_pos] at h
      injection h with hv
      simp [aset, ← hv]
    · simp only [alookup, hk, ite_false] at h
      simp [aset, hk, ih h]

theorem set_same (xs : List Json) (i : Nat) (c : Json)
    (h : xs.get? i = some c) : xs.set i c = xs := by
  induction xs generalizing i with
  | nil => simp [List.get?] at h
  | cons hd t ih =>
    cases i with
    | zero =>
      simp only [List.get?] at h
      injection h with hv
      simp [List.set, hv]
    | succ n =>
      simp only [List.get?] at h
      simp [List.set, ih n h]

theorem isSome_alookup_of_mem_keys {α : Type} {l : List (String × α)} {k : String}
    (h : k ∈ l.map Prod.fst) : (alookup l k).isSome = true := by
  rcases ha : alookup l k with _ | v
  · rw [alookup_eq_none_iff] at ha
    exact absurd h ha
  · rfl

theorem mem_keys_of_isSome_alookup {α : Type} {l : List (String × α)} {k : String}
    (h : (alookup l k).isSome = true) : k ∈ l.map Prod.fst := by
  by_contra hmem
  rw [← alookup_eq_none_iff] at hmem
  simp [hmem] at h

/-- Single-operation frame rule on an object entry: an operation that
succeeds on the child, shifted under the child's key, succeeds on the
parent and rewrites just that entry (quirk operations at the relative
root are always `replace`). -/
theorem applyOp_root_replace (child : Json) (v : Option Json) :
    applyOp child "replace" [] v =
      (match v with
       | some w => Except.ok w
       | none => Except.error "missing value") := by
  simp [applyOp]

theorem applyOp_obj_frame {es : List (String × Json)} {key : String} {child c : Json}
    {o : String} {p : List String} {v : Option Json}
    (hl : alookup es key = some child)
    (hroot : p = [] → o = "replace")
    (h : applyOp child o p v = .ok c) :
    applyOp (Json.obj es) o (key :: p) v = .ok (.obj (aset es key c)) := by
  cases p with
  | nil =>
    have ho := hroot rfl
    subst ho
    rw [applyOp_root_replace] at h
    rcases v with _ | w
    · simp at h
    · simp only [] at h
      injection h with hc
      rw [← hc]
      show applyAtLeaf (Json.obj es) "replace" key (some w) = _
      simp [applyAtLeaf, hl]
  | cons k₂ rest =>
    rw [show applyOp (Json.obj es) o (key :: k₂ :: rest) v =
        (match alookup es key with
         | some child₂ =>
           match applyOp child₂ o (k₂ :: rest) v with
           | .ok c₂ => .ok (.obj (aset es key c₂))
           | .error e => .error e
         | none => .error "path unresolvable") from rfl]
    simp only [hl, h]

/-- Single-operation frame rule on an array element. -/
theorem applyOp_arr_frame {xs : List Json} {i : Nat} {child c : Json}
    {o : String} {p : List String} {v : Option Json}
    (hg : xs.get? i = some child)
    (hroot : p = [] → o = "replace")
    (h : applyOp child o p v = .ok c) :
    applyOp (Json.arr xs) o (decRepr i :: p) v = .ok (.arr (xs.set i c)) := by
  have hlt : i < xs.length := by
    by_contra hge
    rw [List.get?_eq_none.mpr (by omega)] at hg
    cases hg
  cases p with
  | nil =>
    have ho := hroot rfl
    subst ho
    rw [applyOp_root_replace] at h
    rcases v with _ | w
    · simp at h
    · simp only [] at h
      injection h with hc
      rw [← hc]
      show applyAtLeaf (Json.arr xs) "replace" (decRepr i) (some w) = _
      simp [applyAtLeaf, parseIdx_decRepr, hlt]
  | cons k₂ rest =>
    rw [show applyOp (Json.arr xs) o (decRepr i :: k₂ :: rest) v =
        (match parseIdx (decRepr i) with
         | some i₂ =>
           match xs.get? i₂ with
           | some child₂ =>
             match applyOp child₂ o (k₂ :: rest) v with
             | .ok c₂ => .ok (.arr (xs.set i₂ c₂))
             | .error e => .error e
           | none => .error "path unresolvable"
         | none => .error "path unresolvable") from rfl]
    simp only [parseIdx_decRepr, hg, h]

end Fjp

namespace Fjp

/-- List frame rule on an object entry. -/
theorem applyPOps_obj_frame :
    ∀ (ops : List POp) (es : List (String × Json)) (key : String) (child c : Json),
    alookup es key = some child →
    (∀ op ∈ ops, op.path = [] → op.op = "replace") →
    applyPOps child ops = .ok c →
    applyPOps (Json.obj es) (ops.map (shiftOp [key])) = .ok (.obj (aset es key c)) := by
  intro ops
  induction ops with
  | nil =>
    intro es key child c hl _ h
    injection h with hc
    subst hc
    simp [applyPOps, aset_eq_self_of_alookup es key child hl]
  | cons op₁ rest ih =>
    intro es key child c hl hops h
    rw [applyPOps] at h
    rcases hstep : applyOp child op₁.op op₁.path op₁.value with e | c₁ <;> rw [hstep] at h
    · cases h
    · have hframe := applyOp_obj_frame hl
        (fun hp => hops op₁ (List.mem_cons_self _ _) hp) hstep
      rw [List.map_cons, applyPOps]
      rw [show shiftOp [key] op₁ = ⟨op₁.op, key :: op₁.path, op₁.value⟩ from rfl]
      simp only [hframe]
      have := ih (aset es key c₁) key c₁ c (alookup_aset_self es key c₁)
        (fun op hm hp => hops op (List.mem_cons_of_mem _ hm) hp) h
      rw [this, aset_aset]

/-- List frame rule on an array element. -/
theorem applyPOps_arr_frame :
    ∀ (ops : List POp) (xs : List Json) (i : Nat) (child c : Json),
    xs.get? i = some child →
    (∀ op ∈ ops, op.path = [] → op.op = "replace") →
    applyPOps child ops = .ok c →
    applyPOps (Json.arr xs) (ops.map (shiftOp [decRepr i])) = .ok (.arr (xs.set i c)) := by
  intro ops
  induction ops with
  | nil =>
    intro xs i child c hg _ h
    injection h with hc
    subst hc
    simp [applyPOps, set_same xs i child hg]
  | cons op₁ rest ih =>
    intro xs i child c hg hops h
    rw [applyPOps] at h
    rcases hstep : applyOp child op₁.op op₁.path op₁.value with e | c₁ <;> rw [hstep] at h
    · cases h
    · have hframe := applyOp_arr_frame hg
        (fun hp => hops op₁ (List.mem_cons_self _ _) hp) hstep
      rw [List.map_cons, applyPOps]
      rw [show shiftOp [decRepr i] op₁ = ⟨op₁.op, decRepr i :: op₁.path, op₁.value⟩ from rfl]
      simp only [hframe]
      have hget : (xs.set i c₁).get? i = some c₁ := by
        apply List.get?_set_eq_of_lt
        by_contra hge
        rw [List.get?_eq_none.mpr (by omega)] at hg
        cases hg
      have := ih (xs.set i c₁) i c₁ c hget
        (fun op hm hp => hops op (List.mem_cons_of_mem _ hm) hp) h
      rw [this, List.set_set]

end Fjp

namespace Fjp

/-- The two container kinds `_generate` recurses into. -/
def kindOK (a b : Json) : Prop :=
  (∃ as bs, a = Json.obj as ∧ b = Json.obj bs) ∨
  (∃ xs ys, a = Json.arr xs ∧ b = Json.arr ys)

/-- The compare/apply round-trip property, up to object key order. -/
def RT (a b : Json) : Prop :=
  ∃ c, applyPOps a (generate a b []) = .ok c ∧ jeq c b = true

theorem kindOK_of_flags {v w : Json} (h1 : isContainer v = true)
    (h2 : isContainer w = true) (h3 : (isArrJ v == isArrJ w) = true) : kindOK v w := by
  cases v with
  | obj as =>
    cases w with
    | obj bs => exact Or.inl ⟨as, bs, rfl, rfl⟩
    | arr ys => simp [isArrJ] at h3
    | null => simp [isContainer] at h2
    | bool b => simp [isContainer] at h2
    | num n => simp [isContainer] at h2
    | str s => simp [isContainer] at h2
  | arr xs =>
    cases w with
    | arr ys => exact Or.inr ⟨xs, ys, rfl, rfl⟩
    | obj bs => simp [isArrJ] at h3
    | null => simp [isContainer] at h2
    | bool b => simp [isContainer] at h2
    | num n => simp [isContainer] at h2
    | str s => simp [isContainer] at h2
  | null => simp [isContainer] at h1
  | bool b => simp [isContainer] at h1
  | num n => simp [isContainer] at h1
  | str s => simp [isContainer] at h1

theorem applyPOps_singleton (d : Json) (o : String) (p : List String) (v : Option Json) :
    applyPOps d [⟨o, p, v⟩] = applyOp d o p v := by
  rw [applyPOps]
  rcases hs : applyOp d o p v with e | d₂ <;> rfl

theorem applyOp_leaf (d : Json) (o k : String) (v : Option Json) :
    applyOp d o [k] v = applyAtLeaf d o k v := rfl

theorem applyAtLeaf_obj_remove {es : List (String × Json)} {k : String} {v : Json}
    (h : alookup es k = some v) :
    applyAtLeaf (.obj es) "remove" k none = .ok (.obj (aremove es k)) := by
  simp [applyAtLeaf, h]

theorem applyAtLeaf_obj_replace {es : List (String × Json)} {k : String} {v : Json}
    (w : Json) (h : alookup es k = some v) :
    applyAtLeaf (.obj es) "replace" k (some w) = .ok (.obj (aset es k w)) := by
  simp [applyAtLeaf, h]

theorem applyAtLeaf_obj_add (es : List (String × Json)) (k : String) (w : Json) :
    applyAtLeaf (.obj es) "add" k (some w) = .ok (.obj (aset es k w)) := by
  simp [applyAtLeaf]

end Fjp

namespace Fjp

/-- Object-case loop of the old-key pass: processing a duplicate-free
key list drawn from the mirror's keys rewrites exactly those entries of
the working document, matching the new document up to `jeq` on present
keys and deleting vanished ones. -/
theorem genOld_obj_apply
    (N : Nat)
    (hIH : ∀ a b : Json, sizeOf a ≤ N → Json.wfB a = true → Json.wfB b = true →
      kindOK a b → RT a b)
    (as bs : List (String × Json))
    (hN : sizeOf (Json.obj as) ≤ N + 1)
    (hwa : Json.wfEntries as = true)
    (hwb : Json.wfEntries bs = true) :
    ∀ (keys : List String), keys.Nodup →
    ∀ (es : List (String × Json)),
    (∀ k ∈ keys, alookup es k = alookup as k) →
    (∀ k ∈ keys, (alookup as k).isSome = true) →
    nodupKeysB es = true →
    ∃ es₂ : List (String × Json),
      applyPOps (Json.obj es) (genOld (Json.obj as) (Json.obj bs) [] keys).1
        = .ok (Json.obj es₂) ∧
      nodupKeysB es₂ = true ∧
      (∀ k₃, k₃ ∉ keys → alookup es₂ k₃ = alookup es k₃) ∧
      (∀ k₂ ∈ keys,
        (∀ w, alookup bs k₂ = some w →
          ∃ c, alookup es₂ k₂ = some c ∧ jeq c w = true) ∧
        (alookup bs k₂ = none → alookup es₂ k₂ = none)) := by
  intro keys
  induction keys with
  | nil =>
    intro _ es _ _ hnes
    exact ⟨es, by simp [genOld, applyPOps], hnes, fun k₃ _ => rfl,
      fun k₂ hk₂ => absurd hk₂ (List.not_mem_nil k₂)⟩
  | cons k t ihk =>
    intro hnd es hlook hsome hnes
    have hkt : k ∉ t := (List.nodup_cons.mp hnd).1
    have hndt : t.Nodup := (List.nodup_cons.mp hnd).2
    obtain ⟨v, hv⟩ := Option.isSome_iff_exists.mp (hsome k (List.mem_cons_self _ _))
    have hov : jsGet (Json.obj as) k = some v := hv
    have hlk : alookup es k = some v := by
      rw [hlook k (List.mem_cons_self _ _)]; exact hv
    rcases hw : alookup bs k with _ | w
    · -- the key vanished from the new document: a remove is emitted
      have hg : (genOld (Json.obj as) (Json.obj bs) [] (k :: t)).1
          = ⟨"remove", [k], none⟩ :: (genOld (Json.obj as) (Json.obj bs) [] t).1 := by
        rw [genOld_cons_some _ _ _ _ _ _ hov]
        simp [show jsGet (Json.obj bs) k = (none : Option Json) from hw, isArrJ]
      rw [hg, applyPOps, applyOp_leaf, applyAtLeaf_obj_remove hlk]
      obtain ⟨es₂, happ, hn₂, hpres, hrel⟩ := ihk hndt (aremove es k)
        (fun k₂ hk₂ => by
          rw [alookup_aremove_ne _ _ _ (fun hkk => hkt (by rw [hkk]; exact hk₂))]
          exact hlook k₂ (List.mem_cons_of_mem _ hk₂))
        (fun k₂ hk₂ => hsome k₂ (List.mem_cons_of_mem _ hk₂))
        (nodupKeysB_aremove _ _ hnes)
      refine ⟨es₂, happ, hn₂, ?_, ?_⟩
      · intro k₃ hk₃
        rw [hpres k₃ (fun hm => hk₃ (List.mem_cons_of_mem _ hm)),
          alookup_aremove_ne _ _ _ (fun hkk => hk₃ (by rw [← hkk]; exact List.mem_cons_self _ _))]
      · intro k₂ hk₂
        rcases List.mem_cons.mp hk₂ with hk₂ | hk₂
        · subst hk₂
          refine ⟨fun w hww => absurd (hw ▸ hww) (by simp), fun _ => ?_⟩
          rw [hpres k₂ hkt, alookup_aremove_self _ _ hnes]
        · exact hrel k₂ hk₂
    · -- key present in both documents
      have hwfw : Json.wfB w = true := wfEntries_of_alookup hw hwb
      by_cases hcont : (isContainer v && isContainer w && (isArrJ v == isArrJ w)) = true
      · -- recurse into like-kinded containers
        have hg : (genOld (Json.obj as) (Json.obj bs) [] (k :: t)).1
            = (generate v w []).map (shiftOp [k])
              ++ (genOld (Json.obj as) (Json.obj bs) [] t).1 := by
          rw [genOld_cons_some _ _ _ _ _ _ hov]
          simp only [show jsGet (Json.obj bs) k = some w from hw]
          rw [if_pos hcont]
          simp only [List.nil_append]
          rw [(gen_shift (sizeOf v) v le_rfl w [k]).1]
        have hsz : sizeOf v ≤ N := by
          have h1 := jsGet_sizeOf hov (by
            simp only [Bool.and_eq_true] at hcont
            exact hcont.1.1)
          omega
        have hwfv : Json.wfB v = true := wfEntries_of_alookup hv hwa
        simp only [Bool.and_eq_true] at hcont
        obtain ⟨c, happc, hjeqc⟩ := hIH v w hsz hwfv hwfw
          (kindOK_of_flags hcont.1.1 hcont.1.2 hcont.2)
        have hpaths : ∀ op ∈ generate v w [], op.path = [] → op.op = "replace" := by
          intro op hm hp
          obtain ⟨q, hq, hrep⟩ := (gen_path (sizeOf v) v le_rfl w [] op).1 hm
          rw [List.nil_append] at hq
          exact hrep (by rw [← hq]; exact hp)
        have hframe := applyPOps_obj_frame (generate v w []) es k v c hlk hpaths happc
        rw [hg, applyPOps_append, hframe]
        obtain ⟨es₂, happ, hn₂, hpres, hrel⟩ := ihk hndt (aset es k c)
          (fun k₂ hk₂ => by
            rw [alookup_aset_ne _ _ _ _ (fun hkk => hkt (by rw [hkk]; exact hk₂))]
            exact hlook k₂ (List.mem_cons_of_mem _ hk₂))
          (fun k₂ hk₂ => hsome k₂ (List.mem_cons_of_mem _ hk₂))
          (nodupKeysB_aset _ _ _ hnes)
        refine ⟨es₂, happ, hn₂, ?_, ?_⟩
        · intro k₃ hk₃
          rw [hpres k₃ (fun hm => hk₃ (List.mem_cons_of_mem _ hm)),
            alookup_aset_ne _ _ _ _ (fun hkk => hk₃ (by rw [← hkk]; exact List.mem_cons_self _ _))]
        · intro k₂ hk₂
          rcases List.mem_cons.mp hk₂ with hk₂ | hk₂
          · subst hk₂
            refine ⟨fun w₂ hww => ?_, fun hww => absurd (hw ▸ hww) (by simp)⟩
            have hc₂ : alookup es₂ k₂ = some c := by
              rw [hpres k₂ hkt, alookup_aset_self]
            rw [hw] at hww
            injection hww with hww
            exact ⟨c, hc₂, hww ▸ hjeqc⟩
          · exact hrel k₂ hk₂
      · by_cases heq : v = w
        · -- values identical: no operation emitted for this key
          have hg : (genOld (Json.obj as) (Json.obj bs) [] (k :: t)).1
              = (genOld (Json.obj as) (Json.obj bs) [] t).1 := by
            rw [genOld_cons_some _ _ _ _ _ _ hov]
            simp only [show jsGet (Json.obj bs) k = some w from hw]
            rw [if_neg hcont, if_neg (not_not_intro heq)]
            simp
          rw [hg]
          obtain ⟨es₂, happ, hn₂, hpres, hrel⟩ := ihk hndt es
            (fun k₂ hk₂ => hlook k₂ (List.mem_cons_of_mem _ hk₂))
            (fun k₂ hk₂ => hsome k₂ (List.mem_cons_of_mem _ hk₂)) hnes
          refine ⟨es₂, happ, hn₂,
            fun k₃ hk₃ => hpres k₃ (fun hm => hk₃ (List.mem_cons_of_mem _ hm)), ?_⟩
          intro k₂ hk₂
          rcases List.mem_cons.mp hk₂ with hk₂ | hk₂
          · subst hk₂
            refine ⟨fun w₂ hww => ?_, fun hww => absurd (hw ▸ hww) (by simp)⟩
            rw [hw] at hww
            injection hww with hww
            refine ⟨v, by rw [hpres k₂ hkt]; exact hlk, ?_⟩
            rw [heq, hww]
            exact jeq_refl w₂ (hww ▸ hwfw)
          · exact hrel k₂ hk₂
        · -- values differ: a replace is emitted
          have hg : (genOld (Json.obj as) (Json.obj bs) [] (k :: t)).1
              = ⟨"replace", [k], some w⟩ :: (genOld (Json.obj as) (Json.obj bs) [] t).1 := by
            rw [genOld_cons_some _ _ _ _ _ _ hov]
            simp only [show jsGet (Json.obj bs) k = some w from hw]
            rw [if_neg hcont, if_pos heq]
            simp
          rw [hg, applyPOps, applyOp_leaf, applyAtLeaf_obj_replace w hlk]
          obtain ⟨es₂, happ, hn₂, hpres, hrel⟩ := ihk hndt (aset es k w)
            (fun k₂ hk₂ => by
              rw [alookup_aset_ne _ _ _ _ (fun hkk => hkt (by rw [hkk]; exact hk₂))]
              exact hlook k₂ (List.mem_cons_of_mem _ hk₂))
            (fun k₂ hk₂ => hsome k₂ (List.mem_cons_of_mem _ hk₂))
            (nodupKeysB_aset _ _ _ hnes)
          refine ⟨es₂, happ, hn₂, ?_, ?_⟩
          · intro k₃ hk₃
            rw [hpres k₃ (fun hm => hk₃ (List.mem_cons_of_mem _ hm)),
              alookup_aset_ne _ _ _ _ (fun hkk => hk₃ (by rw [← hkk]; exact List.mem_cons_self _ _))]
          · intro k₂ hk₂
            rcases List.mem_cons.mp hk₂ with hk₂ | hk₂
            · subst hk₂
              refine ⟨fun w₂ hww => ?_, fun hww => absurd (hw ▸ hww) (by simp)⟩
              rw [hw] at hww
              injection hww with hww
              refine ⟨w, by rw [hpres k₂ hkt]; exact alookup_aset_self _ _ _, ?_⟩
              rw [← hww]
              exact jeq_refl w hwfw
            · exact hrel k₂ hk₂

end Fjp

namespace Fjp

/-- When the old-key pass over two objects reports no deletion, every
processed mirror key still exists in the new document. -/
theorem genOld_obj_deleted (as bs : List (String × Json)) :
    ∀ keys, (genOld (Json.obj as) (Json.obj bs) [] keys).2 = false →
      ∀ k ∈ keys, alookup as k = none ∨ (alookup bs k).isSome = true := by
  intro keys
  induction keys with
  | nil => intro _ k hk; cases hk
  | cons k t ihk =>
    intro h k₂ hk₂
    rcases hov : jsGet (Json.obj as) k with _ | v
    · rw [genOld_cons_none _ _ _ _ _ hov] at h
      rcases List.mem_cons.mp hk₂ with hk₂ | hk₂
      · exact Or.inl (hk₂ ▸ hov)
      · exact ihk h k₂ hk₂
    · rw [genOld_cons_some _ _ _ _ _ _ hov] at h
      have hrest : (genOld (Json.obj as) (Json.obj bs) [] t).2 = false := by
        rcases Bool.or_eq_false_iff.mp h with ⟨_, h2⟩
        exact h2
      rcases List.mem_cons.mp hk₂ with hk₂ | hk₂
      · subst hk₂
        rcases hw : alookup bs k₂ with _ | w
        · exfalso
          rcases Bool.or_eq_false_iff.mp h with ⟨h1, _⟩
          rw [show jsGet (Json.obj bs) k₂ = (none : Option Json) from hw] at h1
          rw [if_pos (by simp [isArrJ])] at h1
          cases h1
        · exact Or.inr (by simp [hw])
      · exact ihk hrest k₂ hk₂

/-- The add pass over two objects: keys absent from the mirror but
present in the new document are written verbatim; everything else is
untouched. -/
theorem genAdd_obj_apply (as bs : List (String × Json)) :
    ∀ (keys : List String) (es₂ : List (String × Json)),
    nodupKeysB es₂ = true →
    ∃ es₃ : List (String × Json),
      applyPOps (Json.obj es₂) (genAdd (Json.obj as) (Json.obj bs) [] keys)
        = .ok (Json.obj es₃) ∧
      nodupKeysB es₃ = true ∧
      (∀ k w, alookup as k = none → alookup bs k = some w → k ∈ keys →
        alookup es₃ k = some w) ∧
      (∀ k₃, k₃ ∉ keys ∨ (alookup as k₃).isSome = true ∨ alookup bs k₃ = none →
        alookup es₃ k₃ = alookup es₂ k₃) := by
  intro keys
  induction keys with
  | nil =>
    intro es₂ hn
    exact ⟨es₂, by simp [genAdd, applyPOps], hn,
      fun k w _ _ hk => absurd hk (List.not_mem_nil k),
      fun k₃ _ => rfl⟩
  | cons k t ihk =>
    intro es₂ hn
    rcases hma : alookup as k with _ | va
    · rcases hmb : alookup bs k with _ | w
      · -- key in neither document: no operation
        have hg : genAdd (Json.obj as) (Json.obj bs) [] (k :: t)
            = genAdd (Json.obj as) (Json.obj bs) [] t := by
          rw [genAdd]
          simp [show jsGet (Json.obj as) k = (none : Option Json) from hma,
            show jsGet (Json.obj bs) k = (none : Option Json) from hmb]
        rw [hg]
        obtain ⟨es₃, happ, hn₃, hadd, hpres⟩ := ihk es₂ hn
        refine ⟨es₃, happ, hn₃, ?_, ?_⟩
        · intro k₂ w₂ ha hb hk₂
          rcases List.mem_cons.mp hk₂ with hk₂ | hk₂
          · rw [hk₂, hmb] at hb
            simp at hb
          · exact hadd k₂ w₂ ha hb hk₂
        · intro k₃ hc
          apply hpres
          rcases hc with hc | hc
          · exact Or.inl (fun hm => hc (List.mem_cons_of_mem _ hm))
          · exact Or.inr hc
      · -- key added by the new document
        have hg : genAdd (Json.obj as) (Json.obj bs) [] (k :: t)
            = ⟨"add", [k], some w⟩ :: genAdd (Json.obj as) (Json.obj bs) [] t := by
          rw [genAdd]
          simp [show jsGet (Json.obj as) k = (none : Option Json) from hma,
            show jsGet (Json.obj bs) k = some w from hmb]
        rw [hg, applyPOps, applyOp_leaf, applyAtLeaf_obj_add]
        obtain ⟨es₃, happ, hn₃, hadd, hpres⟩ := ihk (aset es₂ k w) (nodupKeysB_aset _ _ _ hn)
        refine ⟨es₃, happ, hn₃, ?_, ?_⟩
        · intro k₂ w₂ ha hb hk₂
          rcases List.mem_cons.mp hk₂ with hk₂ | hk₂
          · rw [hk₂] at ha hb
            rw [hk₂]
            have hww : w₂ = w := by
              have h2 := hmb
              rw [hb] at h2
              simp only [Option.some.injEq] at h2
              exact h2
            rw [hww]
            by_cases hkt : k ∈ t
            · exact hadd k w ha hmb hkt
            · rw [hpres k (Or.inl hkt), alookup_aset_self]
          · exact hadd k₂ w₂ ha hb hk₂
        · intro k₃ hc
          have hne : k ≠ k₃ := by
            intro hkk
            subst hkk
            rcases hc with hc | hc | hc
            · exact hc (List.mem_cons_self _ _)
            · rw [hma] at hc; cases hc
            · rw [hmb] at hc; cases hc
          have hc₂ : k₃ ∉ t ∨ (alookup as k₃).isSome = true ∨ alookup bs k₃ = none := by
            rcases hc with hc | hc
            · exact Or.inl (fun hm => hc (List.mem_cons_of_mem _ hm))
            · exact Or.inr hc
          rw [hpres k₃ hc₂, alookup_aset_ne _ _ _ _ hne]
    · -- key already in the mirror: no operation
      have hg : genAdd (Json.obj as) (Json.obj bs) [] (k :: t)
          = genAdd (Json.obj as) (Json.obj bs) [] t := by
        rw [genAdd]
        rcases hmb : jsGet (Json.obj bs) k with _ | w <;>
          simp [show jsGet (Json.obj as) k = some va from hma, hmb]
      rw [hg]
      obtain ⟨es₃, happ, hn₃, hadd, hpres⟩ := ihk es₂ hn
      refine ⟨es₃, happ, hn₃, ?_, ?_⟩
      · intro k₂ w₂ ha hb hk₂
        rcases List.mem_cons.mp hk₂ with hk₂ | hk₂
        · rw [hk₂, hma] at ha
          simp at ha
        · exact hadd k₂ w₂ ha hb hk₂
      · intro k₃ hc
        apply hpres
        rcases hc with hc | hc
        · exact Or.inl (fun hm => hc (List.mem_cons_of_mem _ hm))
        · exact Or.inr hc

end Fjp

namespace Fjp

/-- Indices `[m+c-1, …, m]` in the descending order the reversed-key
pass visits them. -/
def descIdx : Nat → Nat → List Nat
  | _, 0 => []
  | m, c + 1 => (m + c) :: descIdx m c

theorem range'_concat_eq (m c : Nat) :
    List.range' m (c + 1) = List.range' m c ++ [m + c] := by
  induction c generalizing m with
  | zero => simp [List.range']
  | succ c ih =>
    rw [List.range'_succ, ih (m + 1), List.range'_succ]
    have h : m + 1 + c = m + (c + 1) := by omega
    rw [h]
    simp [List.cons_append]

theorem descIdx_eq_reverse (m c : Nat) :
    descIdx m c = (List.range' m c).reverse := by
  induction c with
  | zero => simp [descIdx, List.range']
  | succ c ih =>
    rw [descIdx, range'_concat_eq, List.reverse_append, ih]
    simp

theorem descIdx_split (a b c : Nat) :
    descIdx a (b + c) = descIdx (a + b) c ++ descIdx a b := by
  induction c with
  | zero => simp [descIdx]
  | succ c ih =>
    rw [show b + (c + 1) = (b + c) + 1 from rfl, descIdx, ih, descIdx]
    have h : a + (b + c) = a + b + c := by omega
    rw [h]
    simp [List.cons_append]

theorem jsGet_arr_decRepr (xs : List Json) (i : Nat) :
    jsGet (Json.arr xs) (decRepr i) = xs.get? i := by
  simp [jsGet, parseIdx_decRepr]

theorem applyAtLeaf_arr_remove {xs : List Json} {i : Nat} (h : i < xs.length) :
    applyAtLeaf (.arr xs) "remove" (decRepr i) none = .ok (.arr (xs.eraseIdx i)) := by
  simp [applyAtLeaf, parseIdx_decRepr, h]

theorem applyAtLeaf_arr_replace {xs : List Json} {i : Nat} (w : Json) (h : i < xs.length) :
    applyAtLeaf (.arr xs) "replace" (decRepr i) (some w) = .ok (.arr (xs.set i w)) := by
  simp [applyAtLeaf, parseIdx_decRepr, h]

theorem applyAtLeaf_arr_add {xs : List Json} {i : Nat} (w : Json) (h : i ≤ xs.length) :
    applyAtLeaf (.arr xs) "add" (decRepr i) (some w) = .ok (.arr (xs.insertIdx i w)) := by
  simp [applyAtLeaf, parseIdx_decRepr, decRepr_ne_dash, h]

/-- The trailing indices of a longer mirror array each produce a
`remove`, and set the deleted flag. -/
theorem genOld_arr_removes (xs ys : List Json) :
    ∀ (c : Nat), ys.length + c ≤ xs.length →
    (genOld (Json.arr xs) (Json.arr ys) [] ((descIdx ys.length c).map decRepr)).1
      = (descIdx ys.length c).map (fun i => ⟨"remove", [decRepr i], none⟩) ∧
    (genOld (Json.arr xs) (Json.arr ys) [] ((descIdx ys.length c).map decRepr)).2
      = decide (0 < c) := by
  intro c
  induction c with
  | zero => intro _; simp [descIdx, genOld]
  | succ c ih =>
    intro hc
    obtain ⟨hops, hflag⟩ := ih (by omega)
    have hv : ∃ v, xs.get? (ys.length + c) = some v := by
      rw [List.get?_eq_get (by omega)]
      exact ⟨_, rfl⟩
    obtain ⟨v, hv⟩ := hv
    have hov : jsGet (Json.arr xs) (decRepr (ys.length + c)) = some v := by
      rw [jsGet_arr_decRepr]; exact hv
    have hnv : jsGet (Json.arr ys) (decRepr (ys.length + c)) = none := by
      rw [jsGet_arr_decRepr]
      exact List.get?_eq_none.mpr (by omega)
    have hg : genOld (Json.arr xs) (Json.arr ys) []
        (decRepr (ys.length + c) :: (descIdx ys.length c).map decRepr)
        = (⟨"remove", [decRepr (ys.length + c)], none⟩ ::
            (genOld (Json.arr xs) (Json.arr ys) []
              ((descIdx ys.length c).map decRepr)).1,
           true) := by
      rw [genOld_cons_some _ _ _ _ _ _ hov]
      simp [hnv, isArrJ]
    rw [show (descIdx ys.length (c + 1)).map decRepr
        = decRepr (ys.length + c) :: (descIdx ys.length c).map decRepr from rfl, hg]
    constructor
    · rw [show ((⟨"remove", [decRepr (ys.length + c)], none⟩ ::
          (genOld (Json.arr xs) (Json.arr ys) []
            ((descIdx ys.length c).map decRepr)).1, true) : List POp × Bool).1
          = ⟨"remove", [decRepr (ys.length + c)], none⟩ ::
            (genOld (Json.arr xs) (Json.arr ys) []
              ((descIdx ys.length c).map decRepr)).1 from rfl, hops]
      rfl
    · show (true : Bool) = decide (0 < c + 1)
      symm
      simp only [decide_eq_true_eq]
      omega

end Fjp

namespace Fjp

theorem get?_set_self (c : Json) : ∀ (xs : List Json) (i : Nat), i < xs.length →
    (xs.set i c).get? i = some c := by
  intro xs
  induction xs with
  | nil => intro i h; simp at h
  | cons hd t ih =>
    intro i h
    cases i with
    | zero => rfl
    | succ n =>
      exact ih n (by simp only [List.length_cons] at h; omega)

theorem get?_set_ne (c : Json) : ∀ (xs : List Json) (i j : Nat), i ≠ j →
    (xs.set i c).get? j = xs.get? j := by
  intro xs
  induction xs with
  | nil => intro i j _; rfl
  | cons hd t ih =>
    intro i j h
    cases i with
    | zero =>
      cases j with
      | zero => exact absurd rfl h
      | succ m => rfl
    | succ n =>
      cases j with
      | zero => rfl
      | succ m => exact ih n m (fun he => h (by rw [he]))

/-- The trailing removes of a longer mirror array truncate the working
document. -/
theorem removes_apply (m : Nat) :
    ∀ (c : Nat) (zs : List Json), zs.length = m + c →
    applyPOps (Json.arr zs)
        ((descIdx m c).map (fun i => ⟨"remove", [decRepr i], none⟩))
      = .ok (.arr (zs.take m)) := by
  intro c
  induction c with
  | zero =>
    intro zs hlen
    simp only [descIdx, List.map_nil, applyPOps]
    rw [List.take_of_length_le (by omega)]
  | succ c ih =>
    intro zs hlen
    rw [show (descIdx m (c + 1)).map
          (fun i => (⟨"remove", [decRepr i], none⟩ : POp))
        = ⟨"remove", [decRepr (m + c)], none⟩ ::
          (descIdx m c).map (fun i => ⟨"remove", [decRepr i], none⟩) from rfl]
    rw [applyPOps, applyOp_leaf, applyAtLeaf_arr_remove (by omega)]
    have herase : zs.eraseIdx (m + c) = zs.take (m + c) := by
      rw [List.eraseIdx_eq_take_drop_succ, List.drop_eq_nil_of_le (by omega)]
      simp
    rw [herase]
    show applyPOps (Json.arr (zs.take (m + c)))
      ((descIdx m c).map (fun i => ⟨"remove", [decRepr i], none⟩)) = _
    have hmin : min m (m + c) = m := by omega
    rw [ih (zs.take (m + c)) (by rw [List.length_take]; omega), List.take_take, hmin]

/-- Per-index phase of the old-key pass over two arrays: within the
common range, each element of the working document is rewritten to a
`jeq`-equivalent of the new document's element, and no deletion is
flagged. -/
theorem genOld_arr_apply
    (N : Nat)
    (hIH : ∀ a b : Json, sizeOf a ≤ N → Json.wfB a = true → Json.wfB b = true →
      kindOK a b → RT a b)
    (xs ys : List Json)
    (hN : sizeOf (Json.arr xs) ≤ N + 1)
    (hwx : Json.wfList xs = true)
    (hwy : Json.wfList ys = true) :
    ∀ (j : Nat), j ≤ xs.length → j ≤ ys.length →
    ∀ (zs : List Json),
    (∀ i, i < j → zs.get? i = xs.get? i) →
    ∃ ws : List Json,
      applyPOps (Json.arr zs) (genOld (Json.arr xs) (Json.arr ys) []
          ((descIdx 0 j).map decRepr)).1 = .ok (.arr ws) ∧
      ws.length = zs.length ∧
      (∀ i, j ≤ i → ws.get? i = zs.get? i) ∧
      (∀ i, i < j → ∃ c w, ws.get? i = some c ∧ ys.get? i = some w ∧ jeq c w = true) ∧
      (genOld (Json.arr xs) (Json.arr ys) [] ((descIdx 0 j).map decRepr)).2 = false := by
  intro j
  induction j with
  | zero =>
    intro _ _ zs _
    exact ⟨zs, by simp [descIdx, genOld, applyPOps], rfl, fun i _ => rfl,
      fun i hi => absurd hi (by omega), by simp [descIdx, genOld]⟩
  | succ j ihj =>
    intro hj1 hj2 zs hpre
    have hkeys : (descIdx 0 (j + 1)).map decRepr
        = decRepr j :: (descIdx 0 j).map decRepr := by
      simp [descIdx]
    obtain ⟨v, hv⟩ : ∃ v, xs.get? j = some v := by
      rw [List.get?_eq_get (by omega)]; exact ⟨_, rfl⟩
    obtain ⟨w, hw⟩ : ∃ w, ys.get? j = some w := by
      rw [List.get?_eq_get (by omega)]; exact ⟨_, rfl⟩
    have hov : jsGet (Json.arr xs) (decRepr j) = some v := by
      rw [jsGet_arr_decRepr]; exact hv
    have hnw : jsGet (Json.arr ys) (decRepr j) = some w := by
      rw [jsGet_arr_decRepr]; exact hw
    have hzj : zs.get? j = some v := by rw [hpre j (by omega)]; exact hv
    have hjz : j < zs.length := by
      by_contra hge
      rw [List.get?_eq_none.mpr (by omega)] at hzj
      cases hzj
    have hwfv : Json.wfB v = true := wfList_mem (List.get?_mem hv) hwx
    have hwfw : Json.wfB w = true := wfList_mem (List.get?_mem hw) hwy
    rw [hkeys]
    by_cases hcont : (isContainer v && isContainer w && (isArrJ v == isArrJ w)) = true
    · -- recurse into like-kinded containers
      have hg : genOld (Json.arr xs) (Json.arr ys) []
          (decRepr j :: (descIdx 0 j).map decRepr)
          = ((generate v w []).map (shiftOp [decRepr j])
              ++ (genOld (Json.arr xs) (Json.arr ys) []
                ((descIdx 0 j).map decRepr)).1,
             (genOld (Json.arr xs) (Json.arr ys) []
                ((descIdx 0 j).map decRepr)).2) := by
        rw [genOld_cons_some _ _ _ _ _ _ hov]
        simp only [hnw]
        rw [if_pos hcont]
        simp only [List.nil_append, Bool.false_or]
        rw [(gen_shift (sizeOf v) v le_rfl w [decRepr j]).1]
      have hsz : sizeOf v ≤ N := by
        have h1 : sizeOf v < sizeOf (Json.arr xs) := sizeOf_get? hv
        omega
      simp only [Bool.and_eq_true] at hcont
      obtain ⟨c, happc, hjeqc⟩ := hIH v w hsz hwfv hwfw
        (kindOK_of_flags hcont.1.1 hcont.1.2 hcont.2)
      have hpaths : ∀ op ∈ generate v w [], op.path = [] → op.op = "replace" := by
        intro op hm hp
        obtain ⟨q, hq, hrep⟩ := (gen_path (sizeOf v) v le_rfl w [] op).1 hm
        rw [List.nil_append] at hq
        exact hrep (by rw [← hq]; exact hp)
      have hframe := applyPOps_arr_frame (generate v w []) zs j v c hzj hpaths happc
      rw [hg]
      obtain ⟨ws, happ, hlen, hpres2, hrel, hflag⟩ := ihj (by omega) (by omega)
        (zs.set j c)
        (fun i hi => by
          rw [get?_set_ne c zs j i (by omega)]
          exact hpre i (by omega))
      refine ⟨ws, ?_, by rw [hlen, List.length_set], ?_, ?_, hflag⟩
      · rw [applyPOps_append, hframe]
        exact happ
      · intro i hi
        rw [hpres2 i (by omega), get?_set_ne c zs j i (by omega)]
      · intro i hi
        by_cases hij : i = j
        · subst hij
          refine ⟨c, w, ?_, hw, hjeqc⟩
          rw [hpres2 i (by omega), get?_set_self c zs i hjz]
        · exact hrel i (by omega)
    · by_cases heq : v = w
      · -- identical values: no operation
        have hg : genOld (Json.arr xs) (Json.arr ys) []
            (decRepr j :: (descIdx 0 j).map decRepr)
            = genOld (Json.arr xs) (Json.arr ys) [] ((descIdx 0 j).map decRepr) := by
          rw [genOld_cons_some _ _ _ _ _ _ hov]
          simp only [hnw]
          rw [if_neg hcont, if_neg (not_not_intro heq)]
          simp
        rw [hg]
        obtain ⟨ws, happ, hlen, hpres2, hrel, hflag⟩ := ihj (by omega) (by omega) zs
          (fun i hi => hpre i (by omega))
        refine ⟨ws, happ, hlen, fun i hi => hpres2 i (by omega), ?_, hflag⟩
        intro i hi
        by_cases hij : i = j
        · subst hij
          refine ⟨v, w, ?_, hw, by rw [heq]; exact jeq_refl w hwfw⟩
          rw [hpres2 i (by omega)]
          exact hzj
        · exact hrel i (by omega)
      · -- differing values: replace
        have hg : genOld (Json.arr xs) (Json.arr ys) []
            (decRepr j :: (descIdx 0 j).map decRepr)
            = (⟨"replace", [decRepr j], some w⟩ ::
                (genOld (Json.arr xs) (Json.arr ys) []
                  ((descIdx 0 j).map decRepr)).1,
               (genOld (Json.arr xs) (Json.arr ys) []
                  ((descIdx 0 j).map decRepr)).2) := by
          rw [genOld_cons_some _ _ _ _ _ _ hov]
          simp only [hnw]
          rw [if_neg hcont, if_pos heq]
          simp
        rw [hg]
        obtain ⟨ws, happ, hlen, hpres2, hrel, hflag⟩ := ihj (by omega) (by omega)
          (zs.set j w)
          (fun i hi => by
            rw [get?_set_ne w zs j i (by omega)]
            exact hpre i (by omega))
        refine ⟨ws, ?_, by rw [hlen, List.length_set], ?_, ?_, hflag⟩
        · rw [applyPOps, applyOp_leaf, applyAtLeaf_arr_replace w hjz]
          exact happ
        · intro i hi
          rw [hpres2 i (by omega), get?_set_ne w zs j i (by omega)]
        · intro i hi
          by_cases hij : i = j
          · subst hij
            refine ⟨w, w, ?_, hw, jeq_refl w hwfw⟩
            rw [hpres2 i (by omega), get?_set_self w zs i hjz]
          · exact hrel i (by omega)

end Fjp

namespace Fjp

theorem insertIdx_at_length (w : Json) : ∀ (zs : List Json),
    zs.insertIdx zs.length w = zs ++ [w] := by
  intro zs
  induction zs with
  | nil => rfl
  | cons hd t ih =>
    rw [List.length_cons, List.insertIdx_succ_cons, ih, List.cons_append]

/-- The add pass skips keys the mirror already has. -/
theorem genAdd_arr_skip (xs ys : List Json) :
    ∀ (keys : List String), (∀ k ∈ keys, (jsGet (Json.arr xs) k).isSome = true) →
    genAdd (Json.arr xs) (Json.arr ys) [] keys = [] := by
  intro keys
  induction keys with
  | nil => intro _; rfl
  | cons k t ih =>
    intro h
    rw [genAdd]
    obtain ⟨v, hv⟩ := Option.isSome_iff_exists.mp (h k (List.mem_cons_self _ _))
    rw [ih (fun k₂ hk₂ => h k₂ (List.mem_cons_of_mem _ hk₂))]
    rcases hnv : jsGet (Json.arr ys) k with _ | nv <;> simp [hv, hnv]

/-- The add pass over trailing indices of a longer new array appends the
new elements verbatim. -/
theorem genAdd_arr_apply (xs ys : List Json) :
    ∀ (c : Nat) (zs : List Json), zs.length + c = ys.length → xs.length ≤ zs.length →
    applyPOps (Json.arr zs)
        (genAdd (Json.arr xs) (Json.arr ys) [] ((List.range' zs.length c).map decRepr))
      = .ok (.arr (zs ++ ys.drop zs.length)) := by
  intro c
  induction c with
  | zero =>
    intro zs hlen _
    rw [show List.range' zs.length 0 = [] from rfl]
    simp only [List.map_nil, genAdd, applyPOps]
    rw [List.drop_eq_nil_of_le (by omega), List.append_nil]
  | succ c ih =>
    intro zs hlen hxz
    obtain ⟨w, hw⟩ : ∃ w, ys.get? zs.length = some w := by
      rw [List.get?_eq_get (by omega)]; exact ⟨_, rfl⟩
    have hmz : jsGet (Json.arr xs) (decRepr zs.length) = none := by
      rw [jsGet_arr_decRepr]
      exact List.get?_eq_none.mpr (by omega)
    have hoz : jsGet (Json.arr ys) (decRepr zs.length) = some w := by
      rw [jsGet_arr_decRepr]; exact hw
    have hg : genAdd (Json.arr xs) (Json.arr ys) []
        ((List.range' zs.length (c + 1)).map decRepr)
        = ⟨"add", [decRepr zs.length], some w⟩ ::
          genAdd (Json.arr xs) (Json.arr ys) []
            ((List.range' (zs.length + 1) c).map decRepr) := by
      rw [List.range'_succ, List.map_cons, genAdd]
      simp [hmz, hoz]
    rw [hg, applyPOps, applyOp_leaf, applyAtLeaf_arr_add w (le_refl _),
      insertIdx_at_length]
    have hlen₂ : (zs ++ [w]).length = zs.length + 1 := by simp
    have := ih (zs ++ [w]) (by rw [hlen₂]; omega) (by rw [hlen₂]; omega)
    rw [hlen₂] at this
    show applyPOps (Json.arr (zs ++ [w]))
      (genAdd (Json.arr xs) (Json.arr ys) []
        ((List.range' (zs.length + 1) c).map decRepr)) = _
    rw [this]
    have hdrop : ys.drop zs.length = w :: ys.drop (zs.length + 1) := by
      rw [List.drop_eq_get_cons (by omega)]
      have hg2 := List.get?_eq_get (l := ys) (n := zs.length) (by omega)
      rw [hg2] at hw
      injection hw with hw
      rw [hw]
    rw [hdrop]
    simp

end Fjp

namespace Fjp

/-- Round trip for two objects, given the round trip for all smaller
container pairs. -/
theorem rt_obj (N : Nat)
    (hIH : ∀ a b : Json, sizeOf a ≤ N → Json.wfB a = true → Json.wfB b = true →
      kindOK a b → RT a b)
    (as bs : List (String × Json))
    (hsz : sizeOf (Json.obj as) ≤ N + 1)
    (hwa : Json.wfB (Json.obj as) = true)
    (hwb : Json.wfB (Json.obj bs) = true) :
    RT (Json.obj as) (Json.obj bs) := by
  have hna : nodupKeysB as = true := by
    simp only [Json.wfB, Bool.and_eq_true] at hwa; exact hwa.1
  have hwae : Json.wfEntries as = true := by
    simp only [Json.wfB, Bool.and_eq_true] at hwa; exact hwa.2
  have hnb : nodupKeysB bs = true := by
    simp only [Json.wfB, Bool.and_eq_true] at hwb; exact hwb.1
  have hwbe : Json.wfEntries bs = true := by
    simp only [Json.wfB, Bool.and_eq_true] at hwb; exact hwb.2
  have hkeys : (jsKeys (Json.obj as)).reverse = (as.map Prod.fst).reverse := rfl
  have hnodup : ((as.map Prod.fst).reverse).Nodup :=
    List.nodup_reverse.mpr (nodup_map_fst_of_nodupKeysB as hna)
  obtain ⟨es₂, happ, hn₂, hpres, hrel⟩ := genOld_obj_apply N hIH as bs hsz hwae hwbe
    ((as.map Prod.fst).reverse) hnodup as
    (fun k _ => rfl)
    (fun k hk => isSome_alookup_of_mem_keys (List.mem_reverse.mp hk))
    hna
  have hmemkeys : ∀ k₂ : String, (alookup es₂ k₂).isSome = true →
      k₂ ∈ (as.map Prod.fst).reverse := by
    intro k₂ hk₂
    by_contra hnm
    rw [hpres k₂ hnm, (alookup_eq_none_iff as k₂).mpr
      (fun hm => hnm (List.mem_reverse.mpr hm))] at hk₂
    simp at hk₂
  rw [show RT (Json.obj as) (Json.obj bs) = ∃ c,
      applyPOps (Json.obj as) (generate (Json.obj as) (Json.obj bs) []) = .ok c ∧
      jeq c (Json.obj bs) = true from rfl]
  rw [generate]
  by_cases hcond : (!(genOld (Json.obj as) (Json.obj bs) []
      (jsKeys (Json.obj as)).reverse).2 &&
      (jsKeys (Json.obj bs)).length == (jsKeys (Json.obj as)).length) = true
  · rw [if_pos hcond]
    rw [hkeys] at hcond
    simp only [Bool.and_eq_true, Bool.not_eq_true'] at hcond
    have hflag := hcond.1
    have hlens : (bs.map Prod.fst).length = (as.map Prod.fst).length := by
      have := hcond.2
      rw [show jsKeys (Json.obj bs) = bs.map Prod.fst from rfl,
        show jsKeys (Json.obj as) = as.map Prod.fst from rfl] at this
      exact eq_of_beq this
    have hdel := genOld_obj_deleted as bs ((as.map Prod.fst).reverse) hflag
    have hABsub : ∀ k ∈ as.map Prod.fst, k ∈ bs.map Prod.fst := by
      intro k hk
      rcases hdel k (List.mem_reverse.mpr hk) with h1 | h1
      · exact absurd (isSome_alookup_of_mem_keys hk) (by simp [h1])
      · exact mem_keys_of_isSome_alookup h1
    have hBAsub : ∀ k ∈ bs.map Prod.fst, k ∈ as.map Prod.fst := by
      have hsub : (as.map Prod.fst).toFinset ⊆ (bs.map Prod.fst).toFinset :=
        fun x hx => List.mem_toFinset.mpr (hABsub x (List.mem_toFinset.mp hx))
      have hcard : (bs.map Prod.fst).toFinset.card ≤ (as.map Prod.fst).toFinset.card := by
        rw [List.toFinset_card_of_nodup (nodup_map_fst_of_nodupKeysB as hna),
          List.toFinset_card_of_nodup (nodup_map_fst_of_nodupKeysB bs hnb), hlens]
      have heq := Finset.eq_of_subset_of_card_le hsub hcard
      intro k hk
      exact List.mem_toFinset.mp (heq ▸ List.mem_toFinset.mpr hk)
    refine ⟨.obj es₂, by rw [hkeys]; exact happ, ?_⟩
    apply jeq_obj_intro
    · intro kv hkv
      have hlkv : alookup es₂ kv.1 = some kv.2 := by
        rw [show kv = (kv.1, kv.2) from (Prod.mk.eta).symm] at hkv
        exact alookup_eq_of_mem_nodup hn₂ hkv
      have hmem : kv.1 ∈ (as.map Prod.fst).reverse :=
        hmemkeys kv.1 (by simp [hlkv])
      rcases hdel kv.1 hmem with h1 | h1
      · exact absurd (isSome_alookup_of_mem_keys (List.mem_reverse.mp hmem))
          (by simp [h1])
      · obtain ⟨w, hw⟩ := Option.isSome_iff_exists.mp h1
        obtain ⟨c, hc, hjc⟩ := (hrel kv.1 hmem).1 w hw
        rw [hlkv] at hc
        injection hc with hc
        exact ⟨w, hw, by rw [hc]; exact hjc⟩
    · intro kv hkv
      have hmem : kv.1 ∈ (as.map Prod.fst).reverse :=
        List.mem_reverse.mpr (hBAsub kv.1 (List.mem_map_of_mem Prod.fst hkv))
      obtain ⟨w, hw⟩ := Option.isSome_iff_exists.mp (alookup_isSome_of_mem hkv)
      obtain ⟨c, hc, _⟩ := (hrel kv.1 hmem).1 w hw
      simp [hc]
  · rw [if_neg hcond]
    rw [hkeys]
    rw [applyPOps_append, happ]
    obtain ⟨es₃, happ₃, hn₃, hadd, hpres₃⟩ :=
      genAdd_obj_apply as bs (jsKeys (Json.obj bs)) es₂ hn₂
    refine ⟨.obj es₃, happ₃, ?_⟩
    apply jeq_obj_intro
    · intro kv hkv
      have hlkv : alookup es₃ kv.1 = some kv.2 := by
        rw [show kv = (kv.1, kv.2) from (Prod.mk.eta).symm] at hkv
        exact alookup_eq_of_mem_nodup hn₃ hkv
      rcases hbk : alookup bs kv.1 with _ | w
      · exfalso
        have hes₂ : alookup es₃ kv.1 = alookup es₂ kv.1 :=
          hpres₃ kv.1 (Or.inr (Or.inr hbk))
        by_cases hmem : kv.1 ∈ (as.map Prod.fst).reverse
        · have := (hrel kv.1 hmem).2 hbk
          rw [hes₂, this] at hlkv
          cases hlkv
        · rw [hes₂, hpres kv.1 hmem,
            (alookup_eq_none_iff as kv.1).mpr
              (fun hm => hmem (List.mem_reverse.mpr hm))]
            at hlkv
          cases hlkv
      · refine ⟨w, rfl, ?_⟩
        rcases hak : alookup as kv.1 with _ | va
        · have : alookup es₃ kv.1 = some w := by
            apply hadd kv.1 w hak hbk
            rw [show jsKeys (Json.obj bs) = bs.map Prod.fst from rfl]
            exact mem_keys_of_isSome_alookup (by simp [hbk])
          rw [hlkv] at this
          injection this with this
          rw [this]
          exact jeq_refl w (wfEntries_of_alookup hbk hwbe)
        · have hes₂ : alookup es₃ kv.1 = alookup es₂ kv.1 :=
            hpres₃ kv.1 (Or.inr (Or.inl (by simp [hak])))
          have hmem : kv.1 ∈ (as.map Prod.fst).reverse :=
            List.mem_reverse.mpr (mem_keys_of_isSome_alookup (by simp [hak]))
          obtain ⟨c, hc, hjc⟩ := (hrel kv.1 hmem).1 w hbk
          rw [hes₂, hc] at hlkv
          injection hlkv with hlkv
          rw [← hlkv]
          exact hjc
    · intro kv hkv
      obtain ⟨w, hw⟩ := Option.isSome_iff_exists.mp (alookup_isSome_of_mem hkv)
      rcases hak : alookup as kv.1 with _ | va
      · have : alookup es₃ kv.1 = some w := by
          apply hadd kv.1 w hak hw
          rw [show jsKeys (Json.obj bs) = bs.map Prod.fst from rfl]
          exact List.mem_map_of_mem Prod.fst hkv
        simp [this]
      · have hes₂ : alookup es₃ kv.1 = alookup es₂ kv.1 :=
          hpres₃ kv.1 (Or.inr (Or.inl (by simp [hak])))
        have hmem : kv.1 ∈ (as.map Prod.fst).reverse :=
          List.mem_reverse.mpr (mem_keys_of_isSome_alookup (by simp [hak]))
        obtain ⟨c, hc, _⟩ := (hrel kv.1 hmem).1 w hw
        rw [hes₂]
        simp [hc]

end Fjp

namespace Fjp

theorem get?_take_lt (xs : List Json) : ∀ (m i : Nat), i < m →
    (xs.take m).get? i = xs.get? i := by
  induction xs with
  | nil => intro m i _; simp
  | cons hd t ih =>
    intro m i hlt
    cases m with
    | zero => omega
    | succ m₂ =>
      cases i with
      | zero => rfl
      | succ i₂ => exact ih m₂ i₂ (by omega)

theorem range'_split_own : ∀ (b a c : Nat),
    List.range' a (b + c) = List.range' a b ++ List.range' (a + b) c := by
  intro b
  induction b with
  | zero => intro a c; simp [List.range']
  | succ b ih =>
    intro a c
    rw [show b + 1 + c = (b + c) + 1 from by omega, List.range'_succ, ih (a + 1) c,
      List.range'_succ]
    have h : a + 1 + b = a + (b + 1) := by omega
    rw [h]
    simp [List.cons_append]

/-- Round trip for two arrays, given the round trip for all smaller
container pairs. -/
theorem rt_arr (N : Nat)
    (hIH : ∀ a b : Json, sizeOf a ≤ N → Json.wfB a = true → Json.wfB b = true →
      kindOK a b → RT a b)
    (xs ys : List Json)
    (hsz : sizeOf (Json.arr xs) ≤ N + 1)
    (hwa : Json.wfB (Json.arr xs) = true)
    (hwb : Json.wfB (Json.arr ys) = true) :
    RT (Json.arr xs) (Json.arr ys) := by
  have hwx : Json.wfList xs = true := by simpa [Json.wfB] using hwa
  have hwy : Json.wfList ys = true := by simpa [Json.wfB] using hwb
  have hkeys : (jsKeys (Json.arr xs)).reverse = (descIdx 0 xs.length).map decRepr := by
    rw [show jsKeys (Json.arr xs)
        = (List.range xs.length).map decRepr from rfl]
    rw [List.range_eq_range', descIdx_eq_reverse, List.map_reverse]
  have hylen : (jsKeys (Json.arr ys)).length = ys.length := by
    rw [show jsKeys (Json.arr ys) = (List.range ys.length).map decRepr from rfl]
    simp
  have hxlen : (jsKeys (Json.arr xs)).length = xs.length := by
    rw [show jsKeys (Json.arr xs) = (List.range xs.length).map decRepr from rfl]
    simp
  rw [show RT (Json.arr xs) (Json.arr ys) = ∃ c,
      applyPOps (Json.arr xs) (generate (Json.arr xs) (Json.arr ys) []) = .ok c ∧
      jeq c (Json.arr ys) = true from rfl]
  by_cases hnm : xs.length ≤ ys.length
  · -- no elements to remove
    obtain ⟨ws, happ, hlen, hpres, hrel, hflag⟩ := genOld_arr_apply N hIH xs ys hsz
      hwx hwy xs.length le_rfl hnm xs (fun i _ => rfl)
    rw [generate]
    by_cases hmn : ys.length = xs.length
    · rw [if_pos (by
        rw [hkeys, hylen, hxlen, hflag, hmn]
        simp)]
      rw [hkeys]
      refine ⟨.arr ws, happ, ?_⟩
      rw [show jeq (Json.arr ws) (Json.arr ys) = jeqList ws ys from rfl]
      apply jeqList_iff.mpr
      refine ⟨by rw [hlen, ← hmn], ?_⟩
      intro i x y hx hy
      have hi : i < xs.length := by
        have h1 : i < ws.length := by
          by_contra hge
          rw [List.get?_eq_none.mpr (by omega)] at hx
          cases hx
        omega
      obtain ⟨c, w, hc, hw, hjcw⟩ := hrel i hi
      rw [hx] at hc
      rw [hy] at hw
      injection hc with hc
      injection hw with hw
      rw [hc, hw]
      exact hjcw
    · rw [if_neg (by
        rw [hkeys, hylen, hxlen, hflag]
        simp [hmn])]
      rw [hkeys, applyPOps_append, happ]
      have hskip : genAdd (Json.arr xs) (Json.arr ys) []
          ((List.range xs.length).map decRepr) = [] := by
        apply genAdd_arr_skip
        intro k hk
        obtain ⟨i, hi, hk⟩ := List.mem_map.mp hk
        rw [← hk, jsGet_arr_decRepr,
          List.get?_eq_get (by exact List.mem_range.mp hi)]
        rfl
      have hrsplit : List.range ys.length
          = List.range xs.length ++ List.range' xs.length (ys.length - xs.length) := by
        have h1 : ys.length = xs.length + (ys.length - xs.length) := by omega
        rw [List.range_eq_range', List.range_eq_range']
        rw [show List.range' 0 ys.length
            = List.range' 0 (xs.length + (ys.length - xs.length)) from by rw [← h1]]
        rw [range'_split_own (xs.length), Nat.zero_add]
      rw [show jsKeys (Json.arr ys) = (List.range ys.length).map decRepr from rfl]
      rw [hrsplit, List.map_append, genAdd_append, hskip, List.nil_append]
      have hgadd := genAdd_arr_apply xs ys (ys.length - xs.length) ws
        (by omega) (by omega)
      rw [hlen] at hgadd
      refine ⟨.arr (ws ++ ys.drop xs.length), hgadd, ?_⟩
      rw [show jeq (Json.arr (ws ++ ys.drop xs.length)) (Json.arr ys)
          = jeqList (ws ++ ys.drop xs.length) ys from rfl]
      apply jeqList_iff.mpr
      constructor
      · rw [List.length_append, hlen, List.length_drop]
        omega
      · intro i x y hx hy
        have hiy : i < ys.length := by
          by_contra hge
          rw [List.get?_eq_none.mpr (by omega)] at hy
          cases hy
        by_cases hix : i < xs.length
        · rw [List.get?_append (by omega : i < ws.length)] at hx
          obtain ⟨c, w, hc, hw, hjcw⟩ := hrel i hix
          rw [hx] at hc
          rw [hy] at hw
          injection hc with hc
          injection hw with hw
          rw [hc, hw]
          exact hjcw
        · rw [List.get?_append_right (by omega : ws.length ≤ i)] at hx
          rw [List.get?_drop] at hx
          rw [hlen] at hx
          rw [show xs.length + (i - xs.length) = i from by omega] at hx
          rw [hy] at hx
          injection hx with hx
          rw [← hx]
          exact jeq_refl y (wfList_mem (List.get?_mem hy) hwy)
  · -- the mirror is longer: trailing elements are removed first
    have hsplit := descIdx_split 0 ys.length (xs.length - ys.length)
    rw [show ys.length + (xs.length - ys.length) = xs.length from by omega,
      Nat.zero_add] at hsplit
    have hrem := genOld_arr_removes xs ys (xs.length - ys.length) (by omega)
    obtain ⟨ws, happ, hlen, hpres, hrel, hflag⟩ := genOld_arr_apply N hIH xs ys hsz
      hwx hwy ys.length (by omega) le_rfl (xs.take ys.length)
      (fun i hi => get?_take_lt xs ys.length i hi)
    have hgold : genOld (Json.arr xs) (Json.arr ys) [] ((descIdx 0 xs.length).map decRepr)
        = ((descIdx ys.length (xs.length - ys.length)).map
            (fun i => ⟨"remove", [decRepr i], none⟩)
            ++ (genOld (Json.arr xs) (Json.arr ys) []
              ((descIdx 0 ys.length).map decRepr)).1,
           true) := by
      rw [hsplit, List.map_append, genOld_append, hrem.1, hrem.2, hflag]
      rw [show decide (0 < xs.length - ys.length) = true from
        decide_eq_true (by omega)]
      rfl
    rw [generate]
    rw [if_neg (by
      rw [hkeys, hgold]
      simp)]
    rw [hkeys, hgold]
    have hskip : genAdd (Json.arr xs) (Json.arr ys) [] (jsKeys (Json.arr ys)) = [] := by
      rw [show jsKeys (Json.arr ys) = (List.range ys.length).map decRepr from rfl]
      apply genAdd_arr_skip
      intro k hk
      obtain ⟨i, hi, hk⟩ := List.mem_map.mp hk
      rw [← hk, jsGet_arr_decRepr,
        List.get?_eq_get (by have := List.mem_range.mp hi; omega)]
      rfl
    rw [hskip, List.append_nil]
    rw [applyPOps_append, removes_apply ys.length (xs.length - ys.length) xs (by omega)]
    refine ⟨.arr ws, happ, ?_⟩
    rw [show jeq (Json.arr ws) (Json.arr ys) = jeqList ws ys from rfl]
    apply jeqList_iff.mpr
    constructor
    · rw [hlen, List.length_take]
      omega
    · intro i x y hx hy
      have hiy : i < ys.length := by
        by_contra hge
        rw [List.get?_eq_none.mpr (by omega)] at hy
        cases hy
      obtain ⟨c, w, hc, hw, hjcw⟩ := hrel i hiy
      rw [hx] at hc
      rw [hy] at hw
      injection hc with hc
      injection hw with hw
      rw [hc, hw]
      exact hjcw

end Fjp

namespace Fjp

/-- fast-json-patch round trip: for well-formed documents of matching
container kind, applying `compare mirror obj` to the mirror succeeds and
yields a document equal to `obj` up to object key ordering. -/
theorem compare_roundtrip (a b : Json) (hwa : Json.wfB a = true)
    (hwb : Json.wfB b = true) (hk : kindOK a b) :
    ∃ c, applyPOps a (compare a b) = .ok c ∧ jeq c b = true := by
  suffices h : ∀ (N : Nat) (a b : Json), sizeOf a ≤ N → Json.wfB a = true →
      Json.wfB b = true → kindOK a b → RT a b by
    exact h (sizeOf a) a b le_rfl hwa hwb hk
  intro N
  induction N with
  | zero =>
    intro a b h _ _ _
    exact absurd h (by have := sizeOf_json_pos a; omega)
  | succ N ihN =>
    intro a b hsz hwa hwb hk
    rcases hk with ⟨as, bs, ha, hb⟩ | ⟨xs, ys, ha, hb⟩
    · subst ha; subst hb
      exact rt_obj N ihN as bs hsz hwa hwb
    · subst ha; subst hb
      exact rt_arr N ihN xs ys hsz hwa hwb

end Fjp

theorem nodupKeysB_foldl_aset (l : List (String × Json)) :
    ∀ acc, nodupKeysB acc = true →
    nodupKeysB (l.foldl (fun acc kv => aset acc kv.1 kv.2) acc) = true := by
  induction l with
  | nil => intro acc h; exact h
  | cons hd t ih =>
    intro acc h
    exact ih (aset acc hd.1 hd.2) (nodupKeysB_aset _ _ _ h)

theorem wfEntries_aset (k : String) (v : Json) (hv : Json.wfB v = true) :
    ∀ (l : List (String × Json)), Json.wfEntries l = true →
    Json.wfEntries (aset l k v) = true := by
  intro l
  induction l with
  | nil =>
    intro _
    simp [aset, Json.wfEntries, hv]
  | cons hd t ih =>
    intro h
    rw [show hd = (hd.1, hd.2) from (Prod.mk.eta).symm] at h
    simp only [Json.wfEntries, Bool.and_eq_true] at h
    by_cases hk : hd.1 = k
    · simp only [aset, hk, if_pos]
      simp [Json.wfEntries, hv, h.2]
    · simp only [aset, hk, ite_false]
      rw [show hd = (hd.1, hd.2) from (Prod.mk.eta).symm]
      simp only [Json.wfEntries, Bool.and_eq_true]
      exact ⟨h.1, ih h.2⟩

theorem wfEntries_foldl_aset (l : List (String × Json))
    (hl : ∀ kv ∈ l, Json.wfB kv.2 = true) :
    ∀ acc, Json.wfEntries acc = true →
    Json.wfEntries (l.foldl (fun acc kv => aset acc kv.1 kv.2) acc) = true := by
  induction l with
  | nil => intro acc h; exact h
  | cons hd t ih =>
    intro acc h
    exact ih (fun kv hm => hl kv (List.mem_cons_of_mem _ hm)) (aset acc hd.1 hd.2)
      (wfEntries_aset hd.1 hd.2 (hl hd (List.mem_cons_self _ _)) acc h)

theorem snd_mem_of_mem_enumFrom {α : Type} : ∀ (xs : List α) (n : Nat) (p : Nat × α),
    p ∈ xs.enumFrom n → p.2 ∈ xs := by
  intro xs
  induction xs with
  | nil => intro n p h; cases h
  | cons hd t ih =>
    intro n p h
    rcases List.mem_cons.mp h with h1 | h1
    · rw [h1]; exact List.mem_cons_self _ _
    · exact List.mem_cons_of_mem _ (ih (n + 1) p h1)

theorem toEntries_wf {a : Json} (h : Json.wfB a = true) :
    ∀ kv ∈ toEntries a, Json.wfB kv.2 = true := by
  intro kv hkv
  cases a with
  | obj es =>
    simp only [Json.wfB, Bool.and_eq_true] at h
    exact wfEntries_mem hkv h.2
  | arr xs =>
    simp only [toEntries] at hkv
    obtain ⟨p, hp, hkp⟩ := List.mem_map.mp hkv
    rw [← hkp]
    exact wfList_mem (snd_mem_of_mem_enumFrom xs 0 p hp) (by simpa [Json.wfB] using h)
  | str s =>
    simp only [toEntries] at hkv
    obtain ⟨p, hp, hkp⟩ := List.mem_map.mp hkv
    rw [← hkp]
    rfl
  | null => exact absurd hkv (List.not_mem_nil kv)
  | bool b => exact absurd hkv (List.not_mem_nil kv)
  | num n => exact absurd hkv (List.not_mem_nil kv)

/-- JavaScript object spread of well-formed documents is well-formed. -/
theorem wfB_spreadInto (a b : Json) (ha : Json.wfB a = true) (hb : Json.wfB b = true) :
    Json.wfB (spreadInto a b) = true := by
  rw [spreadInto]
  simp only [Json.wfB, Bool.and_eq_true]
  constructor
  · exact nodupKeysB_foldl_aset (toEntries a ++ toEntries b) [] rfl
  · refine wfEntries_foldl_aset (toEntries a ++ toEntries b) ?_ [] rfl
    intro kv hkv
    rcases List.mem_append.mp hkv with h1 | h1
    · exact toEntries_wf ha kv h1
    · exact toEntries_wf hb kv h1

/-- Prior state whose nested object the updates rewrite with its keys in
the opposite order. -/
def stK : Json := .obj [("a", .obj [("x", .num 1), ("y", .num 2)])]

/-- Updates carrying the same nested value with reordered keys, plus one
genuinely new key. -/
def usK : Json := .obj [("a", .obj [("y", .num 2), ("x", .num 1)]), ("b", .num 1)]

/-- C6, counterexample: a successful partial-merge `update_state` whose
emitted StateDelta, applied in order to the pre-invocation document,
does not reproduce the server's new mirror exactly: the spread rebuilds
the nested object with its keys reordered, `compare` sees no difference
inside it, and the lone `add` leaves the client's copy with the original
nested key order, so the two documents differ byte-for-byte (they agree
only up to object key ordering). -/
theorem c6_counterexample :
    (updateStateMerge stK usK).reply = .ok "State updated" ∧
    (updateStateMerge stK usK).emitted = [[⟨"add", ["b"], some (.num 1)⟩]] ∧
    Fjp.applyPOps stK [⟨"add", ["b"], some (.num 1)⟩]
      = .ok (.obj [("a", .obj [("x", .num 1), ("y", .num 2)]), ("b", .num 1)]) ∧
    (updateStateMerge stK usK).state
      ≠ .obj [("a", .obj [("x", .num 1), ("y", .num 2)]), ("b", .num 1)] ∧
    jeq (.obj [("a", .obj [("x", .num 1), ("y", .num 2)]), ("b", .num 1)])
      ((updateStateMerge stK usK).state) = true := by
  have hstep : updateStateMerge stK usK =
      ⟨.ok "State updated",
       .obj [("a", .obj [("y", .num 2), ("x", .num 1)]), ("b", .num 1)],
       [[⟨"add", ["b"], some (.num 1)⟩]]⟩ := by
    simp [stK, usK, updateStateMerge, spreadInto, toEntries, aset, Fjp.compare,
      Fjp.generate, Fjp.genOld, Fjp.genAdd, Fjp.jsKeys, Fjp.jsGet, alookup,
      Fjp.isContainer, Fjp.isArrJ]
  refine ⟨by rw [hstep], by rw [hstep], ?_, ?_, ?_⟩
  · simp [stK, Fjp.applyPOps, Fjp.applyOp, Fjp.applyAtLeaf, aset, alookup]
  · rw [hstep]
    simp
  · rw [hstep]
    simp [jeq, jeqList, jeqEntries, keysSub, alookup]

/-- C6 (amended): document-level convergence of `update_state`, stated
per mode.  Explicit-patch mode converges exactly: every emitted
StateDelta applied to the pre-invocation document yields precisely the
new mirror.  Partial-merge mode converges up to object key ordering
(`jeq`): for a well-formed object state and well-formed updates,
applying the emitted delta to the pre-invocation document succeeds and
yields a document `jeq`-equivalent to the new mirror (exact byte-level
equality can fail, as the counterexample shows). -/
theorem c6_delta_convergence (es : List (String × Json)) (ops : List Fjp.RawOp)
    (upd : Json)
    (hwl : Json.wfB (Json.obj es) = true) (hwu : Json.wfB upd = true) :
    (∀ d ∈ (updateStatePatch (Json.obj es) (some ops)).emitted,
      Fjp.applyRawOps (Json.obj es) d
        = .ok (updateStatePatch (Json.obj es) (some ops)).state) ∧
    (∀ d ∈ (updateStateMerge (Json.obj es) upd).emitted,
      ∃ c, Fjp.applyPOps (Json.obj es) d = .ok c ∧
        jeq c ((updateStateMerge (Json.obj es) upd).state) = true) := by
  constructor
  · intro d hd
    by_cases h0 : ops.length = 0
    · simp only [updateStatePatch, if_pos h0] at hd
      exact absurd hd (List.not_mem_nil d)
    · simp only [updateStatePatch, if_neg h0] at hd ⊢
      rcases hval : validateOps ops with _ | e
      · simp only [hval] at hd ⊢
        rcases happ : Fjp.applyRawOps (Json.obj es) ops with e2 | nd
        · simp only [happ] at hd
          exact absurd hd (List.not_mem_nil d)
        · simp only [happ] at hd ⊢
          have hde : d = ops := by
            rcases List.mem_cons.mp hd with h1 | h1
            · exact h1
            · exact absurd h1 (List.not_mem_nil d)
          rw [hde]
          exact happ
      · simp only [hval] at hd
        exact absurd hd (List.not_mem_nil d)
  · intro d hd
    by_cases hlen :
        (Fjp.compare (Json.obj es) (spreadInto (Json.obj es) upd)).length > 0
    · simp only [updateStateMerge, if_pos hlen] at hd ⊢
      have hde : d = Fjp.compare (Json.obj es) (spreadInto (Json.obj es) upd) := by
        rcases List.mem_cons.mp hd with h1 | h1
        · exact h1
        · exact absurd h1 (List.not_mem_nil d)
      obtain ⟨c, happ, hjeq⟩ := Fjp.compare_roundtrip (Json.obj es)
        (spreadInto (Json.obj es) upd) hwl (wfB_spreadInto _ _ hwl hwu)
        (Or.inl ⟨es, _, rfl, rfl⟩)
      rw [hde]
      exact ⟨c, happ, hjeq⟩
    · simp only [updateStateMerge, if_neg hlen] at hd
      exact absurd hd (List.not_mem_nil d)

/-- C6, witness: the amended convergence at a concrete state, patch
batch and update object. -/
theorem c6_witness :
    (∀ d ∈ (updateStatePatch (Json.obj [("n", Json.num 1)])
        (some [⟨some "replace", some "/n", some (Json.num 2)⟩])).emitted,
      Fjp.applyRawOps (Json.obj [("n", Json.num 1)]) d
        = .ok (updateStatePatch (Json.obj [("n", Json.num 1)])
            (some [⟨some "replace", some "/n", some (Json.num 2)⟩])).state) ∧
    (∀ d ∈ (updateStateMerge (Json.obj [("n", Json.num 1)])
        (Json.obj [("m", Json.num 3)])).emitted,
      ∃ c, Fjp.applyPOps (Json.obj [("n", Json.num 1)]) d = .ok c ∧
        jeq c ((updateStateMerge (Json.obj [("n", Json.num 1)])
          (Json.obj [("m", Json.num 3)])).state) = true) :=
  c6_delta_convergence [("n", Json.num 1)]
    [⟨some "replace", some "/n", some (Json.num 2)⟩]
    (Json.obj [("m", Json.num 3)])
    (by simp [Json.wfB, Json.wfEntries, nodupKeysB, alookup])
    (by simp [Json.wfB, Json.wfEntries, nodupKeysB, alookup])
